import Mathlib

/-!
Shallow embedding of `src/hub/core/chunk_engine.py` (the chunk engine of the
Hub tensor store) together with the collaborating data model it manipulates.

The repository ships only `chunk_engine.py` under `src/`; the collaborator
classes (`Chunk`, `ChunkIdEncoder`, `TensorMeta`, the LRU cache, the
compression codec, `Sample`, `Index`) are referenced but their code is not
part of the repository snapshot.  Those are modelled from the spec (each such
definition carries a doc comment saying so).  Everything in `ChunkEngine`
itself is translated directly from the source.

Modelling conventions:
* byte buffers are `List Nat` (one entry per byte),
* the keyed cache is represented by explicit state fields: the tensor-meta
  blob, the optional chunk-id-encoder blob (`none` = blob absent from the
  cache), and the chunk blobs as an association list keyed by chunk id,
* Python exceptions become an error value returned next to the state: every
  stateful operation returns `EngineState × Except EngErr α`, where the
  returned state is whatever had been mutated up to the raise point (Python
  exceptions do not roll mutations back),
* chunk ids, random 128-bit integers in the implementation, are drawn from a
  fresh-id counter (`nextId`); the spec states ids are generated monotonically
  per tensor, and only freshness matters to the engine,
* `cache.maybe_flush()` is a persistence hint with no observable effect on
  the engine state and is elided.
-/

/-- A byte buffer, one list entry per byte. -/
abbrev Bytes := List Nat

/-- Errors raised by the engine and its collaborators.  `sampleTooLarge`
carries whether the message includes the enable-compression advisory hint. -/
inductive EngErr where
  | corruptedMeta
  | incompatibleSample
  | sampleTooLarge (hint : Bool)
  | dynamicShape
  | chunkFull
  | keyNotFound
deriving Repr, DecidableEq

/-- Modelled from the spec: the `UNCOMPRESSED` sentinel from `hub.constants`
(not under `src/`), the value of `sample_compression` meaning raw-dtype
serialization. -/
def UNCOMPRESSED : String := "uncompressed"

/-- Modelled from the spec: the compression collaborator
(`hub.core.compression`, not under `src/`): `compress(array, tag)` and
`decompress_array(bytes, shape)`.  The tag is fixed per tensor, so a codec is
a pair of byte-level functions. -/
structure Codec where
  compress : Bytes → Bytes
  decompress : Bytes → Bytes

/-- Modelled from the spec: the `Sample` wrapper (`hub.core.sample`, not
under `src/`): an array materialized as a shape, a dtype tag and its raw
`tobytes()` buffer. -/
structure Sample where
  shape : List Nat
  dtype : String
  raw : Bytes
deriving Repr, DecidableEq

/-- Modelled from the spec: `Sample.compressed_bytes(compression)` returns
the raw buffer for the `UNCOMPRESSED` sentinel and the compressed encoding
otherwise. -/
def Sample.compressed_bytes (codec : Codec) (compression : String) (s : Sample) : Bytes :=
  if compression = UNCOMPRESSED then s.raw else codec.compress s.raw

/-- Modelled from the spec: entity A, `Chunk` (§4.1, not under `src/`): a
contiguous data buffer plus per-sample shape and byte-range headers.  The
run-length encoders of §4.2 are kept in expanded per-sample form, which the
spec presents as their observable content (`shapes[i]`, `ranges[i]`). -/
structure Chunk where
  data : Bytes
  shapes : List (List Nat)
  ranges : List (Nat × Nat)
deriving Repr, DecidableEq

/-- A freshly constructed `Chunk()`. -/
def Chunk.empty : Chunk := ⟨[], [], []⟩

/-- Modelled from the spec: `num_data_bytes` is the length of `data`. -/
def Chunk.num_data_bytes (c : Chunk) : Nat := c.data.length

/-- Modelled from the spec: `is_under_min_space(threshold)` is
`num_data_bytes < threshold`. -/
def Chunk.is_under_min_space (c : Chunk) (threshold : Nat) : Bool :=
  decide (c.num_data_bytes < threshold)

/-- Modelled from the spec: `append_sample(bytes, max_chunk_size)` copies the
bytes onto `data` and fails if that would exceed `max_chunk_size`. -/
def Chunk.append_sample (c : Chunk) (buffer : Bytes) (max_chunk_size : Nat) :
    Except EngErr Chunk :=
  if max_chunk_size < c.data.length + buffer.length then .error .chunkFull
  else .ok { c with data := c.data ++ buffer }

/-- Modelled from the spec: `update_headers(num_new_bytes, num_new_samples,
shape)` appends `num_new_samples` rows of `shape` to the shape header and the
corresponding contiguous `num_new_bytes / num_new_samples`-byte slots to the
byte-range header, starting at the current end offset. -/
def Chunk.update_headers (c : Chunk) (num_new_bytes num_new_samples : Nat)
    (shape : List Nat) : Chunk :=
  let start := ((c.ranges.getLast?).map Prod.snd).getD 0
  let slot := num_new_bytes / num_new_samples
  { c with
    shapes := c.shapes ++ List.replicate num_new_samples shape,
    ranges := c.ranges ++
      (List.range num_new_samples).map (fun k => (start + k * slot, start + (k + 1) * slot)) }

/-- Modelled from the spec: entity C, `ChunkIdEncoder` (§4.3, not under
`src/`): an ordered sequence of `(chunk_id, last_global_sample_index)` rows.
To stay in `Nat` a row stores `count = last_global_sample_index + 1` (the
number of samples at or before this chunk); a fresh chunk's row therefore
starts at the current sample count rather than at `current - 1`. -/
structure ChunkIdEncoder where
  rows : List (Nat × Nat)
deriving Repr, DecidableEq

/-- Modelled from the spec: `num_samples` is the last row's
`last_global_sample_index + 1`, i.e. its stored count; `0` for no rows. -/
def ChunkIdEncoder.num_samples (e : ChunkIdEncoder) : Nat :=
  ((e.rows.getLast?).map Prod.snd).getD 0

/-- Modelled from the spec: `num_chunks` is the number of rows (ids are
fresh, hence distinct). -/
def ChunkIdEncoder.num_chunks (e : ChunkIdEncoder) : Nat := e.rows.length

/-- Modelled from the spec: `generate_chunk_id()` appends a row for a fresh
id whose sample range is initially empty (`last_global_sample_index`
= `current_num_samples - 1`, i.e. stored count = current sample count). -/
def ChunkIdEncoder.generate_chunk_id (e : ChunkIdEncoder) (id : Nat) : ChunkIdEncoder :=
  ⟨e.rows ++ [(id, e.num_samples)]⟩

/-- Modelled from the spec: `register_samples_to_last_chunk_id(n)` increments
the last row's `last_global_sample_index` by `n`; with no rows the lookup of
the last row fails. -/
def ChunkIdEncoder.register_samples_to_last_chunk_id (e : ChunkIdEncoder) (n : Nat) :
    Except EngErr ChunkIdEncoder :=
  match e.rows.getLast? with
  | none => .error .keyNotFound
  | some (id, c) => .ok ⟨e.rows.dropLast ++ [(id, c + n)]⟩

/-- Search for the row covering global sample index `g`: the first row whose
stored count exceeds `g` (i.e. whose `last_global_sample_index ≥ g`). -/
def lookupIdAux : List (Nat × Nat) → Nat → Option Nat
  | [], _ => none
  | (id, c) :: rest, g => if g < c then some id else lookupIdAux rest g

/-- Modelled from the spec: indexing the encoder by a global sample index
returns the id of the chunk holding that sample. -/
def ChunkIdEncoder.getChunkId (e : ChunkIdEncoder) (g : Nat) : Option Nat :=
  lookupIdAux e.rows g

/-- Helper for `get_local_sample_index`: `prev` is the count of samples in
all chunks before the current row. -/
def localIndexAux (prev : Nat) : List (Nat × Nat) → Nat → Option Nat
  | [], _ => none
  | (_, c) :: rest, g => if g < c then some (g - prev) else localIndexAux c rest g

/-- Modelled from the spec: `get_local_sample_index(g)` is the offset of the
sample within its head chunk, i.e. `g` minus the samples held by earlier
chunks. -/
def ChunkIdEncoder.get_local_sample_index (e : ChunkIdEncoder) (g : Nat) : Option Nat :=
  localIndexAux 0 e.rows g

/-- Modelled from the spec: entity D, `TensorMeta` (§3/§6, not under `src/`):
dtype tag, compression tag, element shape constraint (widened elementwise
bounds) and the global sample count. -/
structure TensorMeta where
  dtype : String
  sample_compression : String
  min_shape : List Nat
  max_shape : List Nat
  length : Nat
deriving Repr, DecidableEq

/-- Modelled from the spec: `check_compatibility(shape, dtype)` fails with an
incompatible-sample error if the dtype differs or the shape violates the
constraint (arity mismatch); a tensor with no samples accepts anything. -/
def TensorMeta.check_compatibility (m : TensorMeta) (shape : List Nat) (dtype : String) :
    Except EngErr Unit :=
  if m.length = 0 then .ok ()
  else if dtype ≠ m.dtype then .error .incompatibleSample
  else if shape.length ≠ m.max_shape.length then .error .incompatibleSample
  else .ok ()

/-- Modelled from the spec: `update(shape, dtype, n)` widens the shape
constraint if needed and increments `length` by `n`; the first sample fixes
dtype and constraint. -/
def TensorMeta.update (m : TensorMeta) (shape : List Nat) (dtype : String) (num : Nat) :
    TensorMeta :=
  if m.length = 0 then
    { m with dtype := dtype, min_shape := shape, max_shape := shape,
             length := m.length + num }
  else
    { m with min_shape := List.zipWith min m.min_shape shape,
             max_shape := List.zipWith max m.max_shape shape,
             length := m.length + num }

/-- The chunk engine's reachable store, i.e. the cache contents it owns for
one tensor key plus its configuration: the tensor-meta blob, the optional
encoder blob (`none` = absent), the chunk blobs keyed by chunk id, the
fresh-id source and `max_chunk_size`. -/
structure EngineState where
  meta : TensorMeta
  encoder : Option ChunkIdEncoder
  chunks : List (Nat × Chunk)
  nextId : Nat
  maxChunkSize : Nat
deriving Repr, DecidableEq

/-- `ChunkEngine.__init__`: rejects `max_chunk_size ≤ 2`, sets
`min_chunk_size_target = max_chunk_size // 2`, starts from the cache contents
of a fresh tensor (meta present, no encoder blob, no chunks). -/
def initEngine (meta : TensorMeta) (max_chunk_size : Nat) : Option EngineState :=
  if max_chunk_size ≤ 2 then none
  else some { meta := meta, encoder := none, chunks := [], nextId := 0,
              maxChunkSize := max_chunk_size }

/-- `self.min_chunk_size_target = self.max_chunk_size // 2`. -/
def EngineState.min_chunk_size_target (e : EngineState) : Nat := e.maxChunkSize / 2

/-- Overwrite the cache entry for chunk id `id` (the value-semantics image of
mutating the cached chunk object / reassigning its key). -/
def setChunk (chunks : List (Nat × Chunk)) (id : Nat) (c : Chunk) : List (Nat × Chunk) :=
  chunks.map (fun p => if p.1 = id then (id, c) else p)

/-- Look up a chunk blob by id. -/
def findChunk (e : EngineState) (id : Nat) : Option Chunk :=
  (e.chunks.find? (fun p => p.1 == id)).map Prod.snd

/-- The pure content of the `chunk_id_encoder` property (chunk_engine.py
lines 93-107): if the blob is absent, a corrupted-meta error when
`tensor_meta.length > 1`, else a blank encoder.  Used by read paths, where
the property's write-back of the blank encoder has no further observable
effect. -/
def EngineState.viewEncoder (e : EngineState) : Except EngErr ChunkIdEncoder :=
  match e.encoder with
  | some enc => .ok enc
  | none => if 1 < e.meta.length then .error .corruptedMeta else .ok ⟨[]⟩

/-- The `chunk_id_encoder` property with its cache write-back: a blank
encoder created on a miss is stored under the encoder key. -/
def EngineState.chunk_id_encoder (e : EngineState) :
    EngineState × Except EngErr ChunkIdEncoder :=
  match e.viewEncoder with
  | .error err => (e, .error err)
  | .ok enc => ({ e with encoder := some enc }, .ok enc)

/-- `num_chunks` property: `0` when the encoder blob is absent. -/
def EngineState.num_chunks (e : EngineState) : Nat :=
  match e.encoder with
  | none => 0
  | some enc => enc.num_chunks

/-- `num_samples` property: `0` when the encoder blob is absent. -/
def EngineState.num_samples (e : EngineState) : Nat :=
  match e.encoder with
  | none => 0
  | some enc => enc.num_samples

/-- The `last_chunk` property resolved to its cache entry: `none` when there
are no chunks, otherwise the blob named by the last encoder row (a missing
blob is a cache lookup failure). -/
def EngineState.last_chunk_entry (e : EngineState) :
    Except EngErr (Option (Nat × Chunk)) :=
  if e.num_chunks = 0 then .ok none
  else
    match e.encoder with
    | none => .ok none
    | some enc =>
      match enc.rows.getLast? with
      | none => .ok none
      | some (id, _) =>
        match e.chunks.find? (fun p => p.1 == id) with
        | some p => .ok (some p)
        | none => .error .keyNotFound

/-- `_min_chunk_ct_for_data_size` (lines 371-373): the minimum number of
chunks data of a given size fits in, `ceil(size / chunk_max_data_bytes)`. -/
def min_chunk_ct_for_data_size (chunk_max_data_bytes size : Nat) : Nat :=
  (size + chunk_max_data_bytes - 1) / chunk_max_data_bytes

/-- `_try_appending_to_last_chunk` (lines 164-197): store the buffer in the
last chunk when it exists, is under the minimum-space threshold and
combining does not raise the minimum chunk count; note the source truncates
to `extra_bytes = min(len(buffer), max_chunk_size - last_chunk_size)`. -/
def EngineState.try_appending_to_last_chunk (e : EngineState) (buffer : Bytes) :
    EngineState × Except EngErr Bool :=
  match e.last_chunk_entry with
  | .error err => (e, .error err)
  | .ok none => (e, .ok false)
  | .ok (some (id, last_chunk)) =>
    let incoming_num_bytes := buffer.length
    if last_chunk.is_under_min_space e.min_chunk_size_target then
      let last_chunk_size := last_chunk.num_data_bytes
      let chunk_ct_content := min_chunk_ct_for_data_size e.maxChunkSize incoming_num_bytes
      let extra_bytes := min incoming_num_bytes (e.maxChunkSize - last_chunk_size)
      let combined_chunk_ct :=
        min_chunk_ct_for_data_size e.maxChunkSize (incoming_num_bytes + last_chunk_size)
      if combined_chunk_ct = chunk_ct_content then
        match last_chunk.append_sample (buffer.take extra_bytes) e.maxChunkSize with
        | .error err => (e, .error err)
        | .ok c => ({ e with chunks := setChunk e.chunks id c }, .ok true)
      else (e, .ok false)
    else (e, .ok false)

/-- `_create_new_chunk` (lines 226-234): generate a fresh chunk id through
the encoder, construct a blank chunk and put it in the cache. -/
def EngineState.create_new_chunk (e : EngineState) : EngineState × Except EngErr Nat :=
  match e.chunk_id_encoder with
  | (e1, .error err) => (e1, .error err)
  | (e1, .ok enc) =>
    let chunk_id := e1.nextId
    ({ e1 with encoder := some (enc.generate_chunk_id chunk_id),
               nextId := chunk_id + 1,
               chunks := e1.chunks ++ [(chunk_id, Chunk.empty)] }, .ok chunk_id)

/-- `_append_to_new_chunk` (lines 199-209): create a new chunk and store the
buffer inside it. -/
def EngineState.append_to_new_chunk (e : EngineState) (buffer : Bytes) :
    EngineState × Except EngErr Unit :=
  match e.create_new_chunk with
  | (e1, .error err) => (e1, .error err)
  | (e1, .ok chunk_id) =>
    match Chunk.empty.append_sample buffer e1.maxChunkSize with
    | .error err => (e1, .error err)
    | .ok c => ({ e1 with chunks := setChunk e1.chunks chunk_id c }, .ok ())

/-- `_synchronize_last_chunk` (lines 211-224): register the new samples with
the chunk id encoder, then update the last chunk's headers. -/
def EngineState.synchronize_last_chunk (e : EngineState)
    (num_new_samples num_new_bytes : Nat) (shape : List Nat) :
    EngineState × Except EngErr Unit :=
  match e.chunk_id_encoder with
  | (e1, .error err) => (e1, .error err)
  | (e1, .ok enc) =>
    match enc.register_samples_to_last_chunk_id num_new_samples with
    | .error err => (e1, .error err)
    | .ok enc1 =>
      let e2 := { e1 with encoder := some enc1 }
      match e2.last_chunk_entry with
      | .error err => (e2, .error err)
      | .ok none => (e2, .error .keyNotFound)
      | .ok (some (id, c)) =>
        ({ e2 with
            chunks := setChunk e2.chunks id
              (c.update_headers num_new_bytes num_new_samples shape) }, .ok ())

/-- `_append_bytes` (lines 139-162): check compatibility, update the tensor
meta first, then place the buffer into the last or a new chunk and register
exactly one sample. -/
def EngineState.append_bytes (e : EngineState) (buffer : Bytes) (shape : List Nat)
    (dtype : String) : EngineState × Except EngErr Unit :=
  match e.meta.check_compatibility shape dtype with
  | .error err => (e, .error err)
  | .ok () =>
    let e1 := { e with meta := e.meta.update shape dtype 1 }
    match e1.try_appending_to_last_chunk buffer with
    | (e2, .error err) => (e2, .error err)
    | (e2, .ok true) => e2.synchronize_last_chunk 1 buffer.length shape
    | (e2, .ok false) =>
      match e2.append_to_new_chunk buffer with
      | (e3, .error err) => (e3, .error err)
      | (e3, .ok ()) => e3.synchronize_last_chunk 1 buffer.length shape

/-- `_check_sample_size` (lines 343-350): reject buffers above
`min_chunk_size_target`; the message carries the enable-compression hint
exactly when `sample_compression` is `UNCOMPRESSED`. -/
def EngineState.check_sample_size (e : EngineState) (num_bytes : Nat) :
    Except EngErr Unit :=
  if e.min_chunk_size_target < num_bytes then
    .error (.sampleTooLarge (decide (e.meta.sample_compression = UNCOMPRESSED)))
  else .ok ()

/-- `append` (lines 277-290) on a materialized `Sample`: serialize under the
tensor's compression, check the size, then feed `_append_bytes`. -/
def EngineState.append (codec : Codec) (e : EngineState) (sample : Sample) :
    EngineState × Except EngErr Unit :=
  let data := Sample.compressed_bytes codec e.meta.sample_compression sample
  match e.check_sample_size data.length with
  | .error err => (e, .error err)
  | .ok () => e.append_bytes data sample.shape sample.dtype

/-- Iterated `append`: the engine's per-sample loop (`extend`'s fallback path
and the compressed array path's write loop). -/
def runAppends (codec : Codec) : EngineState → List Sample → EngineState × Except EngErr Unit
  | e, [] => (e, .ok ())
  | e, s :: rest =>
    match e.append codec s with
    | (e1, .error err) => (e1, .error err)
    | (e1, .ok ()) => runAppends codec e1 rest

/-- The pre-validation loop of `extend`'s array path: check every sample size
before writing any. -/
def checkAllSizes (e : EngineState) : List Nat → Except EngErr Unit
  | [] => .ok ()
  | n :: rest =>
    match e.check_sample_size n with
    | .error err => .error err
    | .ok () => checkAllSizes e rest

/-- The write loop of `extend`'s uncompressed array path: `_append_bytes` on
each row buffer with the array's (uniform) shape and dtype. -/
def appendEachBytes (shape : List Nat) (dtype : String) :
    EngineState → List Bytes → EngineState × Except EngErr Unit
  | e, [] => (e, .ok ())
  | e, b :: rest =>
    match e.append_bytes b shape dtype with
    | (e1, .error err) => (e1, .error err)
    | (e1, .ok ()) => appendEachBytes shape dtype e1 rest

/-- `extend` (lines 236-264) on a uniform numpy array, given as the list of
per-row `tobytes()` buffers plus the shared row shape and dtype: both the
uncompressed and the compressed branch first check every sample's serialized
size, then write. -/
def EngineState.extend_array (codec : Codec) (e : EngineState) (rows : List Bytes)
    (shape : List Nat) (dtype : String) : EngineState × Except EngErr Unit :=
  if e.meta.sample_compression = UNCOMPRESSED then
    match checkAllSizes e (rows.map List.length) with
    | .error err => (e, .error err)
    | .ok () => appendEachBytes shape dtype e rows
  else
    match checkAllSizes e (rows.map (fun r => (codec.compress r).length)) with
    | .error err => (e, .error err)
    | .ok () => runAppends codec e (rows.map (fun r => ⟨shape, dtype, r⟩))

/-- `read_sample_from_chunk` (lines 319-341): translate the global index to a
local one, look up the shape and byte range headers, slice the chunk data and
decompress when the tensor is compressed.  A sample is returned as its shape
together with its raw byte buffer (`np.frombuffer(...).reshape(shape)` is
determined by these and the tensor dtype). -/
def EngineState.read_sample_from_chunk (codec : Codec) (e : EngineState) (g : Nat)
    (chunk : Chunk) : Except EngErr (List Nat × Bytes) :=
  match e.viewEncoder with
  | .error err => .error err
  | .ok enc =>
    match enc.get_local_sample_index g with
    | none => .error .keyNotFound
    | some li =>
      match chunk.shapes.get? li, chunk.ranges.get? li with
      | some shape, some (sb, eb) =>
        let buffer := (chunk.data.drop sb).take (eb - sb)
        if e.meta.sample_compression ≠ UNCOMPRESSED then
          .ok (shape, codec.decompress buffer)
        else .ok (shape, buffer)
      | _, _ => .error .keyNotFound

/-- The per-index body of `numpy` (lines 302-307): locate the chunk for a
global index through the encoder and read the sample from it. -/
def EngineState.read_index (codec : Codec) (e : EngineState) (g : Nat) :
    Except EngErr (List Nat × Bytes) :=
  match e.viewEncoder with
  | .error err => .error err
  | .ok enc =>
    match enc.getChunkId g with
    | none => .error .keyNotFound
    | some id =>
      match e.chunks.find? (fun p => p.1 == id) with
      | none => .error .keyNotFound
      | some p => e.read_sample_from_chunk codec g p.2

/-- The accumulation loop of `numpy` (lines 299-316): read each selected
index, tracking the previous shape; with `aslist = false` a shape change
raises the dynamic-shape error before the sample is accumulated. -/
def EngineState.numpyLoop (codec : Codec) (e : EngineState) (aslist : Bool) :
    List Nat → Option (List Nat) → Except EngErr (List (List Nat × Bytes))
  | [], _ => .ok []
  | g :: rest, last_shape =>
    match e.read_index codec g with
    | .error err => .error err
    | .ok s =>
      if !aslist && last_shape.isSome && last_shape ≠ some s.1 then
        .error .dynamicShape
      else
        match e.numpyLoop codec aslist rest (some s.1) with
        | .error err => .error err
        | .ok rest1 => .ok (s :: rest1)

/-- `numpy(index, aslist)` (lines 292-317) over an index already resolved to
its list of global sample indices.  `_format_samples` delegates to the
`Index` collaborator (not under `src/`), whose `apply`/`apply_squeeze` are
the identity for a plain resolved integer-range index, so the result is the
accumulated sample list (for `aslist = false` the caller assembles the dense
array from the equal-shaped samples). -/
def EngineState.numpy (codec : Codec) (e : EngineState) (indices : List Nat)
    (aslist : Bool) : Except EngErr (List (List Nat × Bytes)) :=
  e.numpyLoop codec aslist indices none

/-!
The reachability invariant used to prove the round-trip property: a run of
successful appends leaves the store segmented into chunks whose data buffers
and headers spell out exactly the appended samples in order.
-/

/-- The shape and serialized byte buffer of one stored sample. -/
abbrev StoredSample := List Nat × Bytes

/-- The stored samples with global indices in `[lo, hi)`. -/
def storeSeg (stored : List StoredSample) (lo hi : Nat) : List StoredSample :=
  (stored.drop lo).take (hi - lo)

/-- Byte-range header rows for consecutive samples laid out from offset
`start`. -/
def offsetsFrom (start : Nat) : List StoredSample → List (Nat × Nat)
  | [] => []
  | x :: rest => (start, start + x.2.length) :: offsetsFrom (start + x.2.length) rest

/-- Total byte length of a run of stored samples. -/
def lenSum (xs : List StoredSample) : Nat := (xs.map (fun q => q.2.length)).sum

/-- The chunk whose data holds exactly the given samples, with coherent
shape and byte-range headers. -/
def buildChunk (xs : List StoredSample) : Chunk :=
  ⟨(xs.map Prod.snd).flatten, xs.map Prod.fst, offsetsFrom 0 xs⟩

/-- The cache contents backing a freshly created tensor: meta present, no
encoder blob, no chunks. -/
def freshEngine (meta : TensorMeta) (max_chunk_size : Nat) : EngineState :=
  { meta := meta, encoder := none, chunks := [], nextId := 0,
    maxChunkSize := max_chunk_size }

/-- Encoder rows and cached chunk blobs correspond pointwise and in order;
each chunk holds exactly the segment of stored samples between the previous
row's count and its own; later rows carry strictly larger ids; the final
count covers the whole store. -/
def SegOk (stored : List StoredSample) :
    List (Nat × Nat) → List (Nat × Chunk) → Nat → Prop
  | [], [], lo => lo = stored.length
  | (id, c) :: rows, (idc, ch) :: chs, lo =>
      idc = id ∧ lo < c ∧ ch = buildChunk (storeSeg stored lo c) ∧
      (∀ q ∈ rows, id < q.1) ∧ SegOk stored rows chs c
  | _ :: _, [], _ => False
  | [], _ :: _, _ => False

/-- Reachability invariant of the write path: the meta length counts the
stored samples, all chunk ids are below the fresh-id source, and the encoder
and chunk blobs (absent only while the store is empty) segment the stored
samples in order. -/
def Good (e : EngineState) (stored : List StoredSample) : Prop :=
  e.meta.length = stored.length ∧
  (∀ p ∈ e.chunks, p.1 < e.nextId) ∧
  match e.encoder with
  | none => stored = [] ∧ e.chunks = []
  | some enc => SegOk stored enc.rows e.chunks 0

/-- The chunk a single sample occupies alone: its buffer plus exactly one
shape header row and one byte-range row. -/
def newSampleChunk (buffer : Bytes) (shape : List Nat) : Chunk :=
  ⟨buffer, [shape], [(0, buffer.length)]⟩

/-!
Concrete fixtures shared by witnesses and counterexamples: a `uint8` tensor
with 64-byte chunks (hence `min_chunk_size_target = 32`), an identity codec
for uncompressed tensors and a prefix-byte codec standing in for a real
compressor.
-/

/-- Fresh uncompressed `uint8` tensor meta. -/
def u8meta : TensorMeta := ⟨"u8", UNCOMPRESSED, [], [], 0⟩

/-- Fresh compressed (`png`-tagged) `uint8` tensor meta. -/
def pngMeta : TensorMeta := ⟨"u8", "png", [], [], 0⟩

/-- Identity codec (adequate for uncompressed tensors, where it is unused). -/
def idCodec : Codec := ⟨id, id⟩

/-- An invertible toy codec: compression prepends a marker byte. -/
def markCodec : Codec := ⟨fun b => 9 :: b, fun b => b.drop 1⟩

/-- Engine over a fresh uncompressed tensor with `max_chunk_size = 64`. -/
def eng64 : EngineState :=
  { meta := u8meta, encoder := none, chunks := [], nextId := 0, maxChunkSize := 64 }

/-- Engine over a fresh compressed tensor with `max_chunk_size = 64`. -/
def engC64 : EngineState :=
  { meta := pngMeta, encoder := none, chunks := [], nextId := 0, maxChunkSize := 64 }

/-- A `u8` sample of the given shape and bytes. -/
def mkSample (shape : List Nat) (bytes : Bytes) : Sample := ⟨shape, "u8", bytes⟩

/-- A 4-byte `u8` sample filled with `v`. -/
def fourByteSample (v : Nat) : Sample := ⟨[4], "u8", [v, v, v, v]⟩

/-- `eng64` after one successful 4-byte append: one chunk of 4 bytes. -/
def oneAppend : EngineState :=
  (runAppends idCodec eng64 [fourByteSample 0]).1

/-- `eng64` after eight successful 4-byte appends: one chunk of 32 bytes. -/
def eightAppends : EngineState :=
  (runAppends idCodec eng64 ((List.range 8).map fourByteSample)).1

/-- `eng64` after nine successful 4-byte appends. -/
def nineAppends : EngineState :=
  (runAppends idCodec eng64 ((List.range 9).map fourByteSample)).1

/-- `eng64` after appending a `(3,)` sample and a `(4,)` sample (spec S5). -/
def twoShapesState : EngineState :=
  (runAppends idCodec eng64 [⟨[3], "u8", [1, 2, 3]⟩, ⟨[4], "u8", [4, 5, 6, 7]⟩]).1

/-- A 40-byte `u8` sample, above `eng64`'s 32-byte threshold. -/
def bigSample : Sample := ⟨[40], "u8", List.replicate 40 1⟩

/-- `eng64` with the chunk-id-encoder blob absent and `length = 1`. -/
def lenOneState : EngineState := { eng64 with meta := { u8meta with length := 1 } }

/-- `eng64` with the chunk-id-encoder blob absent and `length = 2`. -/
def lenTwoState : EngineState := { eng64 with meta := { u8meta with length := 2 } }

/-!
Bookkeeping lemmas for the write path: how each sub-operation of
`_append_bytes` moves `TensorMeta.length` and `ChunkIdEncoder.num_samples`.
-/

theorem TensorMeta.length_update (m : TensorMeta) (shape : List Nat) (dtype : String)
    (num : Nat) : (m.update shape dtype num).length = m.length + num := by
  unfold TensorMeta.update
  split <;> rfl

theorem TensorMeta.compression_update (m : TensorMeta) (shape : List Nat) (dtype : String)
    (num : Nat) : (m.update shape dtype num).sample_compression = m.sample_compression := by
  unfold TensorMeta.update
  split <;> rfl

/-- `try_appending_to_last_chunk` only ever rewrites chunk blobs: meta,
encoder, id source and configuration are untouched, whatever the outcome. -/
theorem try_appending_fields (e : EngineState) (buffer : Bytes) :
    (e.try_appending_to_last_chunk buffer).1.meta = e.meta ∧
    (e.try_appending_to_last_chunk buffer).1.encoder = e.encoder ∧
    (e.try_appending_to_last_chunk buffer).1.nextId = e.nextId ∧
    (e.try_appending_to_last_chunk buffer).1.maxChunkSize = e.maxChunkSize := by
  unfold EngineState.try_appending_to_last_chunk
  split
  · exact ⟨rfl, rfl, rfl, rfl⟩
  · exact ⟨rfl, rfl, rfl, rfl⟩
  · split
    · dsimp only
      split
      · split
        · exact ⟨rfl, rfl, rfl, rfl⟩
        · exact ⟨rfl, rfl, rfl, rfl⟩
      · exact ⟨rfl, rfl, rfl, rfl⟩
    · exact ⟨rfl, rfl, rfl, rfl⟩

theorem ChunkIdEncoder.num_samples_generate (enc : ChunkIdEncoder) (id : Nat) :
    (enc.generate_chunk_id id).num_samples = enc.num_samples := by
  unfold ChunkIdEncoder.generate_chunk_id ChunkIdEncoder.num_samples
  simp

theorem ChunkIdEncoder.num_samples_register {enc enc1 : ChunkIdEncoder} {n : Nat}
    (h : enc.register_samples_to_last_chunk_id n = .ok enc1) :
    enc1.num_samples = enc.num_samples + n := by
  unfold ChunkIdEncoder.register_samples_to_last_chunk_id at h
  split at h
  · exact absurd h (by simp)
  · rename_i id c hlast
    cases h
    unfold ChunkIdEncoder.num_samples
    simp [hlast]

theorem EngineState.eta_encoder {e : EngineState} {enc : ChunkIdEncoder}
    (h : e.encoder = some enc) : ({ e with encoder := some enc } : EngineState) = e := by
  cases e
  simp only at h
  simp [h]

theorem chunk_id_encoder_some {e : EngineState} {enc : ChunkIdEncoder}
    (h : e.encoder = some enc) :
    e.chunk_id_encoder = ({ e with encoder := some enc }, .ok enc) := by
  simp [EngineState.chunk_id_encoder, EngineState.viewEncoder, h]

theorem chunk_id_encoder_none_small {e : EngineState} (h : e.encoder = none)
    (hl : ¬ 1 < e.meta.length) :
    e.chunk_id_encoder = ({ e with encoder := some ⟨[]⟩ }, .ok ⟨[]⟩) := by
  simp [EngineState.chunk_id_encoder, EngineState.viewEncoder, h, hl]

theorem chunk_id_encoder_none_big {e : EngineState} (h : e.encoder = none)
    (hl : 1 < e.meta.length) :
    e.chunk_id_encoder = (e, .error .corruptedMeta) := by
  simp [EngineState.chunk_id_encoder, EngineState.viewEncoder, h, hl]

theorem num_samples_eq_of_encoder {e e2 : EngineState} (h : e2.encoder = e.encoder) :
    e2.num_samples = e.num_samples := by
  unfold EngineState.num_samples
  rw [h]

/-- `_synchronize_last_chunk` with one sample: on success the encoder's
sample count grows by exactly one and the meta blob and configuration are
untouched. -/
theorem sync_ok_info {e e1 : EngineState} {nb : Nat} {sh : List Nat}
    (h : e.synchronize_last_chunk 1 nb sh = (e1, .ok ())) :
    e1.num_samples = e.num_samples + 1 ∧ e1.meta = e.meta ∧
    e1.maxChunkSize = e.maxChunkSize := by
  unfold EngineState.synchronize_last_chunk at h
  cases hev : e.encoder with
  | none =>
    by_cases hl : 1 < e.meta.length
    · rw [chunk_id_encoder_none_big hev hl] at h
      exact absurd h (by simp)
    · rw [chunk_id_encoder_none_small hev hl] at h
      simp only [ChunkIdEncoder.register_samples_to_last_chunk_id, List.getLast?_nil] at h
      exact absurd h (by simp)
  | some enc =>
    rw [chunk_id_encoder_some hev, EngineState.eta_encoder hev] at h
    simp only at h
    split at h
    · exact absurd h (by simp)
    · rename_i enc1 hreg
      split at h
      · exact absurd h (by simp)
      · exact absurd h (by simp)
      · rename_i id c hentry
        simp only [Prod.mk.injEq] at h
        obtain ⟨he1, -⟩ := h
        subst he1
        refine ⟨?_, rfl, rfl⟩
        show enc1.num_samples = e.num_samples + 1
        rw [ChunkIdEncoder.num_samples_register hreg]
        unfold EngineState.num_samples
        rw [hev]

/-- `_append_to_new_chunk`: on success the sample count is unchanged (the new
encoder row starts empty) and the meta blob and configuration are
untouched. -/
theorem append_new_ok_info {e e1 : EngineState} {buffer : Bytes}
    (h : e.append_to_new_chunk buffer = (e1, .ok ())) :
    e1.num_samples = e.num_samples ∧ e1.meta = e.meta ∧
    e1.maxChunkSize = e.maxChunkSize := by
  unfold EngineState.append_to_new_chunk EngineState.create_new_chunk at h
  cases hev : e.encoder with
  | none =>
    by_cases hl : 1 < e.meta.length
    · rw [chunk_id_encoder_none_big hev hl] at h
      exact absurd h (by simp)
    · rw [chunk_id_encoder_none_small hev hl] at h
      simp only at h
      split at h
      · exact absurd h (by simp)
      · rename_i c happ
        simp only [Prod.mk.injEq] at h
        obtain ⟨he1, -⟩ := h
        subst he1
        refine ⟨?_, rfl, rfl⟩
        show (ChunkIdEncoder.generate_chunk_id ⟨[]⟩ e.nextId).num_samples = e.num_samples
        rw [ChunkIdEncoder.num_samples_generate]
        unfold EngineState.num_samples
        rw [hev]
        rfl
  | some enc =>
    rw [chunk_id_encoder_some hev, EngineState.eta_encoder hev] at h
    simp only at h
    split at h
    · exact absurd h (by simp)
    · rename_i c happ
      simp only [Prod.mk.injEq] at h
      obtain ⟨he1, -⟩ := h
      subst he1
      refine ⟨?_, rfl, rfl⟩
      show (enc.generate_chunk_id e.nextId).num_samples = e.num_samples
      rw [ChunkIdEncoder.num_samples_generate]
      unfold EngineState.num_samples
      rw [hev]

/-- `_append_bytes`: a successful call adds exactly one to both
`TensorMeta.length` and `ChunkIdEncoder.num_samples`, and leaves the
compression tag and chunk-size configuration alone. -/
theorem append_bytes_ok_counts {e e1 : EngineState} {b : Bytes} {sh : List Nat}
    {dt : String} (h : e.append_bytes b sh dt = (e1, .ok ())) :
    e1.meta.length = e.meta.length + 1 ∧ e1.num_samples = e.num_samples + 1 ∧
    e1.maxChunkSize = e.maxChunkSize ∧
    e1.meta.sample_compression = e.meta.sample_compression := by
  unfold EngineState.append_bytes at h
  split at h
  · exact absurd h (by simp)
  · simp only at h
    split at h
    · exact absurd h (by simp)
    · -- appended into the last chunk, then synchronized
      rename_i e2 htry
      obtain ⟨hns, hmeta, hmax⟩ := sync_ok_info h
      have hfields := try_appending_fields { e with meta := e.meta.update sh dt 1 } b
      rw [htry] at hfields
      obtain ⟨hm2, hen2, -, hx2⟩ := hfields
      refine ⟨?_, ?_, ?_, ?_⟩
      · rw [hmeta, hm2]
        simp [TensorMeta.length_update]
      · rw [hns, num_samples_eq_of_encoder hen2,
            num_samples_eq_of_encoder (show ({ e with meta := e.meta.update sh dt 1 } :
              EngineState).encoder = e.encoder from rfl)]
      · rw [hmax, hx2]
      · rw [hmeta, hm2]
        simp [TensorMeta.compression_update]
    · -- a new chunk was created, then synchronized
      rename_i e2 htry
      split at h
      · exact absurd h (by simp)
      · rename_i e3 hnew
        obtain ⟨hns, hmeta, hmax⟩ := sync_ok_info h
        obtain ⟨hns3, hm3, hx3⟩ := append_new_ok_info hnew
        have hfields := try_appending_fields { e with meta := e.meta.update sh dt 1 } b
        rw [htry] at hfields
        obtain ⟨hm2, hen2, -, hx2⟩ := hfields
        refine ⟨?_, ?_, ?_, ?_⟩
        · rw [hmeta, hm3, hm2]
          simp [TensorMeta.length_update]
        · rw [hns, hns3, num_samples_eq_of_encoder hen2,
              num_samples_eq_of_encoder (show ({ e with meta := e.meta.update sh dt 1 } :
                EngineState).encoder = e.encoder from rfl)]
        · rw [hmax, hx3, hx2]
        · rw [hmeta, hm3, hm2]
          simp [TensorMeta.compression_update]

/-!
Oversize samples: `_check_sample_size` fires before anything is written.
-/

/-- `append` on an oversize serialized sample: the size check fails first,
with the advisory hint exactly on uncompressed tensors, and the state is
returned untouched. -/
theorem append_oversize {codec : Codec} {e : EngineState} {s : Sample}
    (h : e.min_chunk_size_target <
      (Sample.compressed_bytes codec e.meta.sample_compression s).length) :
    e.append codec s =
      (e, .error (.sampleTooLarge (decide (e.meta.sample_compression = UNCOMPRESSED)))) := by
  unfold EngineState.append EngineState.check_sample_size
  simp only [if_pos h]

/-- The pre-validation loop rejects as soon as some size exceeds the
threshold, with the advisory hint exactly on uncompressed tensors. -/
theorem checkAllSizes_oversize {e : EngineState} {sizes : List Nat}
    (h : ∃ n ∈ sizes, e.min_chunk_size_target < n) :
    checkAllSizes e sizes =
      .error (.sampleTooLarge (decide (e.meta.sample_compression = UNCOMPRESSED))) := by
  induction sizes with
  | nil => simp at h
  | cons n rest ih =>
    unfold checkAllSizes EngineState.check_sample_size
    by_cases hn : e.min_chunk_size_target < n
    · simp [hn]
    · have hrest : ∃ m ∈ rest, e.min_chunk_size_target < m := by
        obtain ⟨m, hm, hlt⟩ := h
        rcases List.mem_cons.mp hm with hm0 | hm1
        · exact absurd (hm0 ▸ hlt) hn
        · exact ⟨m, hm1, hlt⟩
      simpa [hn] using ih hrest

/-- `extend` on a uniform array containing an oversize serialized sample:
both branches pre-validate every size, so the call fails with the
sample-too-large error (hint exactly on uncompressed tensors) and returns
the state untouched. -/
theorem extend_array_oversize {codec : Codec} {e : EngineState} {rows : List Bytes}
    {shape : List Nat} {dtype : String}
    (h : ∃ r ∈ rows, e.min_chunk_size_target <
      (Sample.compressed_bytes codec e.meta.sample_compression ⟨shape, dtype, r⟩).length) :
    e.extend_array codec rows shape dtype =
      (e, .error (.sampleTooLarge (decide (e.meta.sample_compression = UNCOMPRESSED)))) := by
  unfold EngineState.extend_array
  by_cases hc : e.meta.sample_compression = UNCOMPRESSED
  · have hsz : ∃ n ∈ rows.map List.length, e.min_chunk_size_target < n := by
      obtain ⟨r, hr, hlt⟩ := h
      refine ⟨r.length, List.mem_map_of_mem List.length hr, ?_⟩
      simpa [Sample.compressed_bytes, hc] using hlt
    simp [hc, checkAllSizes_oversize hsz]
  · have hsz : ∃ n ∈ rows.map (fun r => (codec.compress r).length),
        e.min_chunk_size_target < n := by
      obtain ⟨r, hr, hlt⟩ := h
      refine ⟨(codec.compress r).length,
        List.mem_map_of_mem (fun r => (codec.compress r).length) hr, ?_⟩
      simpa [Sample.compressed_bytes, hc] using hlt
    simp [hc, checkAllSizes_oversize hsz]

theorem append_ok_counts {codec : Codec} {e e1 : EngineState} {s : Sample}
    (h : e.append codec s = (e1, .ok ())) :
    e1.meta.length = e.meta.length + 1 ∧ e1.num_samples = e.num_samples + 1 := by
  unfold EngineState.append at h
  dsimp only at h
  split at h
  · exact absurd h (by simp)
  · obtain ⟨h1, h2, -, -⟩ := append_bytes_ok_counts h
    exact ⟨h1, h2⟩

theorem runAppends_consistency {codec : Codec} :
    ∀ {l : List Sample} {e e1 : EngineState}, runAppends codec e l = (e1, .ok ()) →
      e.meta.length = e.num_samples → e1.meta.length = e1.num_samples := by
  intro l
  induction l with
  | nil =>
    intro e e1 h heq
    unfold runAppends at h
    simp only [Prod.mk.injEq] at h
    rw [← h.1]
    exact heq
  | cons s rest ih =>
    intro e e1 h heq
    unfold runAppends at h
    split at h
    · exact absurd h (by simp)
    · rename_i e2 happ
      obtain ⟨h1, h2⟩ := append_ok_counts happ
      exact ih h (by rw [h1, h2, heq])

theorem appendEachBytes_consistency {shape : List Nat} {dtype : String} :
    ∀ {l : List Bytes} {e e1 : EngineState},
      appendEachBytes shape dtype e l = (e1, .ok ()) →
      e.meta.length = e.num_samples → e1.meta.length = e1.num_samples := by
  intro l
  induction l with
  | nil =>
    intro e e1 h heq
    unfold appendEachBytes at h
    simp only [Prod.mk.injEq] at h
    rw [← h.1]
    exact heq
  | cons b rest ih =>
    intro e e1 h heq
    unfold appendEachBytes at h
    split at h
    · exact absurd h (by simp)
    · rename_i e2 happ
      obtain ⟨h1, h2, -, -⟩ := append_bytes_ok_counts happ
      exact ih h (by rw [h1, h2, heq])

/-- C2: after every successful `append` or `extend` operation,
`TensorMeta.length` equals `ChunkIdEncoder.num_samples`, assuming the two
were equal before the operation. -/
theorem c2_length_consistency :
    (∀ (codec : Codec) (e e1 : EngineState) (s : Sample),
        e.append codec s = (e1, .ok ()) →
        e.meta.length = e.num_samples → e1.meta.length = e1.num_samples) ∧
    (∀ (codec : Codec) (e e1 : EngineState) (rows : List Bytes) (shape : List Nat)
        (dtype : String),
        e.extend_array codec rows shape dtype = (e1, .ok ()) →
        e.meta.length = e.num_samples → e1.meta.length = e1.num_samples) := by
  constructor
  · intro codec e e1 s h heq
    obtain ⟨h1, h2⟩ := append_ok_counts h
    rw [h1, h2, heq]
  · intro codec e e1 rows shape dtype h heq
    unfold EngineState.extend_array at h
    split at h
    · split at h
      · exact absurd h (by simp)
      · exact appendEachBytes_consistency h heq
    · split at h
      · exact absurd h (by simp)
      · exact runAppends_consistency h heq

/-- C2 witness: a concrete successful append on a fresh engine keeps the
meta length equal to the encoder's sample count. -/
theorem c2_length_consistency_witness :
    (eng64.append idCodec (mkSample [2] [7, 7])).1.meta.length =
      (eng64.append idCodec (mkSample [2] [7, 7])).1.num_samples :=
  c2_length_consistency.1 idCodec eng64 _ (mkSample [2] [7, 7]) rfl rfl

/-- C3 counterexample: with the chunk-id-encoder blob absent from the cache
and `TensorMeta.length = 1 > 0`, the first access to `chunk_id_encoder` does
not raise the corrupted-meta error; it creates and returns a blank encoder
(the source guards with `length > 1`, not `length > 0`). -/
theorem c3_meta_guard_counterexample :
    lenOneState.encoder = none ∧ 0 < lenOneState.meta.length ∧
    lenOneState.chunk_id_encoder = ({ lenOneState with encoder := some ⟨[]⟩ }, .ok ⟨[]⟩) ∧
    (lenOneState.chunk_id_encoder).2 ≠ .error .corruptedMeta := by
  refine ⟨rfl, by decide, rfl, ?_⟩
  have h3 : (lenOneState.chunk_id_encoder).2 = .ok ⟨[]⟩ := rfl
  rw [h3]
  exact fun hcontra => Except.noConfusion hcontra

/-- C3 amended: with the encoder blob absent, the first access to
`chunk_id_encoder` raises the corrupted-meta error exactly when
`TensorMeta.length > 1`; for `length ≤ 1` (in particular the just-written
`length = 1` state) a blank encoder is created and stored instead. -/
theorem c3_meta_guard (e : EngineState) (henc : e.encoder = none) :
    ((e.chunk_id_encoder).2 = .error .corruptedMeta ↔ 1 < e.meta.length) ∧
    (¬ 1 < e.meta.length →
      e.chunk_id_encoder = ({ e with encoder := some ⟨[]⟩ }, .ok ⟨[]⟩)) := by
  refine ⟨⟨?_, ?_⟩, ?_⟩
  · intro h
    by_contra hl
    rw [chunk_id_encoder_none_small henc hl] at h
    exact Except.noConfusion h
  · intro hl
    rw [chunk_id_encoder_none_big henc hl]
  · intro hl
    exact chunk_id_encoder_none_small henc hl

/-- C3 witness: the guard fires at `length = 2` and materializes a blank
encoder at `length = 1`. -/
theorem c3_meta_guard_witness :
    (lenTwoState.chunk_id_encoder).2 = .error .corruptedMeta ∧
    lenOneState.chunk_id_encoder = ({ lenOneState with encoder := some ⟨[]⟩ }, .ok ⟨[]⟩) :=
  ⟨(c3_meta_guard lenTwoState rfl).1.mpr (by decide),
   (c3_meta_guard lenOneState rfl).2 (by decide)⟩

/-- C6: a sample whose serialized buffer exceeds `min_chunk_size_target`
makes `append` and `extend` fail with the sample-too-large error, whose
message carries the enable-compression advisory exactly when
`sample_compression` is `UNCOMPRESSED` (the `decide (...)` hint flag). -/
theorem c6_sample_too_large :
    (∀ (codec : Codec) (e : EngineState) (s : Sample),
        e.min_chunk_size_target <
          (Sample.compressed_bytes codec e.meta.sample_compression s).length →
        e.append codec s =
          (e, .error (.sampleTooLarge
            (decide (e.meta.sample_compression = UNCOMPRESSED))))) ∧
    (∀ (codec : Codec) (e : EngineState) (rows : List Bytes) (shape : List Nat)
        (dtype : String),
        (∃ r ∈ rows, e.min_chunk_size_target <
          (Sample.compressed_bytes codec e.meta.sample_compression
            ⟨shape, dtype, r⟩).length) →
        e.extend_array codec rows shape dtype =
          (e, .error (.sampleTooLarge
            (decide (e.meta.sample_compression = UNCOMPRESSED))))) :=
  ⟨fun _ _ _ h => append_oversize h, fun _ _ _ _ _ h => extend_array_oversize h⟩

/-- C6 witness: a 40-byte sample on the uncompressed 64-byte engine fails
with the hint, and an oversize compressed batch fails without it. -/
theorem c6_sample_too_large_witness :
    eng64.append idCodec bigSample = (eng64, .error (.sampleTooLarge true)) ∧
    engC64.extend_array markCodec [List.replicate 40 1] [40] "u8" =
      (engC64, .error (.sampleTooLarge false)) := by
  constructor
  · have h := c6_sample_too_large.1 idCodec eng64 bigSample (by decide)
    simpa using h
  · have h := c6_sample_too_large.2 markCodec engC64 [List.replicate 40 1] [40] "u8"
      ⟨List.replicate 40 1, by simp, by decide⟩
    simpa using h

/-- C7: `extend` over a uniform array containing an oversize sample raises
before any chunk, `TensorMeta` or `ChunkIdEncoder` state is mutated: the
returned state is the input state, so meta length and encoder sample count
are unchanged by the failed call. -/
theorem c7_batch_atomicity (codec : Codec) (e : EngineState) (rows : List Bytes)
    (shape : List Nat) (dtype : String)
    (h : ∃ r ∈ rows, e.min_chunk_size_target <
      (Sample.compressed_bytes codec e.meta.sample_compression ⟨shape, dtype, r⟩).length) :
    (e.extend_array codec rows shape dtype).1 = e ∧
    (∃ hint, (e.extend_array codec rows shape dtype).2 = .error (.sampleTooLarge hint)) ∧
    (e.extend_array codec rows shape dtype).1.meta.length = e.meta.length ∧
    (e.extend_array codec rows shape dtype).1.num_samples = e.num_samples := by
  rw [extend_array_oversize h]
  exact ⟨rfl, ⟨_, rfl⟩, rfl, rfl⟩

/-- C7 witness: a three-row uniform batch with one oversize row leaves the
fresh engine untouched. -/
theorem c7_batch_atomicity_witness :
    (eng64.extend_array idCodec [[1, 1], List.replicate 40 2, [3, 3]] [2] "u8").1 = eng64 ∧
    (∃ hint, (eng64.extend_array idCodec [[1, 1], List.replicate 40 2, [3, 3]] [2] "u8").2 =
      .error (.sampleTooLarge hint)) ∧
    (eng64.extend_array idCodec [[1, 1], List.replicate 40 2, [3, 3]] [2] "u8").1.meta.length =
      eng64.meta.length ∧
    (eng64.extend_array idCodec [[1, 1], List.replicate 40 2, [3, 3]] [2] "u8").1.num_samples =
      eng64.num_samples :=
  c7_batch_atomicity idCodec eng64 [[1, 1], List.replicate 40 2, [3, 3]] [2] "u8"
    ⟨List.replicate 40 2, by simp, by decide⟩

/-- C10: a single `append` of an oversize sample performs the size check
before `TensorMeta.update` and before any chunk write: the failed call
leaves meta, encoder and chunks exactly as they were. -/
theorem c10_single_append_atomicity (codec : Codec) (e : EngineState) (s : Sample)
    (h : e.min_chunk_size_target <
      (Sample.compressed_bytes codec e.meta.sample_compression s).length) :
    (e.append codec s).1 = e ∧
    (e.append codec s).1.meta = e.meta ∧
    (e.append codec s).1.encoder = e.encoder ∧
    (e.append codec s).1.chunks = e.chunks ∧
    ∃ hint, (e.append codec s).2 = .error (.sampleTooLarge hint) := by
  rw [append_oversize h]
  exact ⟨rfl, rfl, rfl, rfl, ⟨_, rfl⟩⟩

/-- C10 witness: an oversize single append on an engine that already holds a
sample leaves its full state in place. -/
theorem c10_single_append_atomicity_witness :
    (eightAppends.append idCodec bigSample).1 = eightAppends ∧
    (eightAppends.append idCodec bigSample).1.meta = eightAppends.meta ∧
    (eightAppends.append idCodec bigSample).1.encoder = eightAppends.encoder ∧
    (eightAppends.append idCodec bigSample).1.chunks = eightAppends.chunks ∧
    ∃ hint, (eightAppends.append idCodec bigSample).2 = .error (.sampleTooLarge hint) :=
  c10_single_append_atomicity idCodec eightAppends bigSample (by decide)

theorem num_chunks_eq_of_encoder {e e2 : EngineState} (h : e2.encoder = e.encoder) :
    e2.num_chunks = e.num_chunks := by
  unfold EngineState.num_chunks
  rw [h]

theorem last_chunk_entry_set_meta (e : EngineState) (m : TensorMeta) :
    ({ e with meta := m } : EngineState).last_chunk_entry = e.last_chunk_entry := rfl

/-- `_synchronize_last_chunk` never changes the number of chunks: it only
bumps the count on the final encoder row. -/
theorem sync_ok_num_chunks {e e1 : EngineState} {ns nb : Nat} {sh : List Nat}
    (h : e.synchronize_last_chunk ns nb sh = (e1, .ok ())) :
    e1.num_chunks = e.num_chunks := by
  unfold EngineState.synchronize_last_chunk at h
  cases hev : e.encoder with
  | none =>
    by_cases hl : 1 < e.meta.length
    · rw [chunk_id_encoder_none_big hev hl] at h
      exact absurd h (by simp)
    · rw [chunk_id_encoder_none_small hev hl] at h
      simp only [ChunkIdEncoder.register_samples_to_last_chunk_id, List.getLast?_nil] at h
      exact absurd h (by simp)
  | some enc =>
    rw [chunk_id_encoder_some hev, EngineState.eta_encoder hev] at h
    simp only at h
    split at h
    · exact absurd h (by simp)
    · rename_i enc1 hreg
      split at h
      · exact absurd h (by simp)
      · exact absurd h (by simp)
      · rename_i id c hentry
        simp only [Prod.mk.injEq] at h
        obtain ⟨he1, -⟩ := h
        subst he1
        show enc1.num_chunks = e.num_chunks
        unfold ChunkIdEncoder.register_samples_to_last_chunk_id at hreg
        split at hreg
        · exact absurd hreg (by simp)
        · rename_i id0 c0 hlast
          cases hreg
          have hne : enc.rows.length ≠ 0 := by
            intro hz
            rw [List.length_eq_zero.mp hz] at hlast
            exact Option.noConfusion hlast
          simp only [ChunkIdEncoder.num_chunks, EngineState.num_chunks, hev,
            List.length_append, List.length_dropLast, List.length_singleton]
          omega

/-- C9: whenever `_try_appending_to_last_chunk` chooses to combine a sample
(of legal size, i.e. within `min_chunk_size_target`) with the last chunk,
the entire byte buffer is written into that one chunk: no other chunk is
touched and no byte is dropped by the `extra_bytes` truncation. -/
theorem c9_no_partial_samples (e e1 : EngineState) (buffer : Bytes)
    (hb : buffer.length ≤ e.min_chunk_size_target)
    (h : e.try_appending_to_last_chunk buffer = (e1, .ok true)) :
    ∃ id c, e.last_chunk_entry = .ok (some (id, c)) ∧
      e1 = { e with chunks := setChunk e.chunks id { c with data := c.data ++ buffer } } := by
  unfold EngineState.try_appending_to_last_chunk at h
  split at h
  · exact absurd h (by simp)
  · exact absurd h (by simp)
  · rename_i id c hentry
    dsimp only at h
    split at h
    · rename_i hunder
      split at h
      · rename_i hct
        split at h
        · exact absurd h (by simp)
        · rename_i c1 happ
          refine ⟨id, c, hentry, ?_⟩
          have hfull : min buffer.length (e.maxChunkSize - c.num_data_bytes) =
              buffer.length := by
            have hs : c.num_data_bytes < e.min_chunk_size_target := by
              simpa [Chunk.is_under_min_space] using hunder
            have h2 : e.maxChunkSize / 2 * 2 ≤ e.maxChunkSize :=
              Nat.div_mul_le_self e.maxChunkSize 2
            unfold EngineState.min_chunk_size_target at hs hb
            omega
          rw [hfull, List.take_length] at happ
          unfold Chunk.append_sample at happ
          split at happ
          · exact absurd happ (by simp)
          · simp only [Except.ok.injEq] at happ
            simp only [Prod.mk.injEq] at h
            rw [← h.1, ← happ]
      · exact absurd h (by simp)
    · exact absurd h (by simp)

/-- C9 witness: a 4-byte sample combined into a 4-byte last chunk lands
whole in that chunk. -/
theorem c9_no_partial_samples_witness :
    ∃ id c, oneAppend.last_chunk_entry = .ok (some (id, c)) ∧
      (oneAppend.try_appending_to_last_chunk [5, 5, 5, 5]).1 =
        { oneAppend with chunks := setChunk oneAppend.chunks id { c with data := c.data ++ [5, 5, 5, 5] } } :=
  c9_no_partial_samples oneAppend _ [5, 5, 5, 5] (by decide) rfl

/-- C5 counterexample: after eight 4-byte appends the single chunk holds 32
bytes; combining a ninth 4-byte sample with it would not change the chunk
count computed by `_min_chunk_ct_for_data_size` (both counts are 1), yet the
successful ninth append creates a second chunk, because the last chunk
already reached `min_chunk_size_target`. -/
theorem c5_packing_counterexample :
    eightAppends.num_chunks = 1 ∧
    (findChunk eightAppends 0).map Chunk.num_data_bytes = some 32 ∧
    min_chunk_ct_for_data_size eightAppends.maxChunkSize (4 + 32) =
      min_chunk_ct_for_data_size eightAppends.maxChunkSize 4 ∧
    (eightAppends.append idCodec (fourByteSample 8)).2 = .ok () ∧
    (eightAppends.append idCodec (fourByteSample 8)).1.num_chunks = 2 :=
  ⟨rfl, rfl, rfl, rfl, rfl⟩

/-- C5 amended: packing optimality holds on the code's combine branch: when
the last chunk is still under `min_chunk_size_target` and combining would
not increase the chunk count computed by `_min_chunk_ct_for_data_size`, a
successful `_append_bytes` creates no new chunk; once the last chunk reaches
the target, a new chunk is created regardless of those counts. -/
theorem c5_packing (e e1 : EngineState) (buffer : Bytes) (shape : List Nat)
    (dtype : String) (id : Nat) (c : Chunk)
    (hlast : e.last_chunk_entry = .ok (some (id, c)))
    (hunder : c.is_under_min_space e.min_chunk_size_target = true)
    (hct : min_chunk_ct_for_data_size e.maxChunkSize
        (buffer.length + c.num_data_bytes) =
      min_chunk_ct_for_data_size e.maxChunkSize buffer.length)
    (h : e.append_bytes buffer shape dtype = (e1, .ok ())) :
    e1.num_chunks = e.num_chunks := by
  unfold EngineState.append_bytes at h
  split at h
  · exact absurd h (by simp)
  · simp only at h
    split at h
    · exact absurd h (by simp)
    · -- the combine branch was taken: only the last chunk's blob changes
      rename_i e2 htry
      have hsync := sync_ok_num_chunks h
      have hfields := try_appending_fields { e with meta := e.meta.update shape dtype 1 } buffer
      rw [htry] at hfields
      rw [hsync, num_chunks_eq_of_encoder hfields.2.1]
      exact num_chunks_eq_of_encoder rfl
    · -- the hypotheses force the combine branch, so `ok false` is absurd
      rename_i e2 htry
      exfalso
      unfold EngineState.try_appending_to_last_chunk at htry
      rw [last_chunk_entry_set_meta, hlast] at htry
      dsimp only at htry
      rw [show ({ e with meta := e.meta.update shape dtype 1 } :
        EngineState).min_chunk_size_target = e.min_chunk_size_target from rfl,
        if_pos hunder] at htry
      rw [show ({ e with meta := e.meta.update shape dtype 1 } :
        EngineState).maxChunkSize = e.maxChunkSize from rfl, if_pos hct] at htry
      split at htry
      · simp at htry
      · simp at htry

/-- C5 witness: a 4-byte append onto a state whose last chunk holds only 4
bytes (under the 32-byte target, equal chunk counts) creates no new chunk. -/
theorem c5_packing_witness :
    (oneAppend.append_bytes [9, 9, 9, 9] [4] "u8").1.num_chunks = oneAppend.num_chunks :=
  c5_packing oneAppend _ [9, 9, 9, 9] [4] "u8" 0 ⟨[0, 0, 0, 0], [[4]], [(0, 4)]⟩
    rfl rfl rfl rfl

/-!
List-level facts about the chunk blob store.
-/

theorem setChunk_setChunk (l : List (Nat × Chunk)) (id : Nat) (c1 c2 : Chunk) :
    setChunk (setChunk l id c1) id c2 = setChunk l id c2 := by
  unfold setChunk
  rw [List.map_map]
  apply List.map_congr_left
  intro p hp
  by_cases hpid : p.1 = id <;> simp [hpid]

theorem find?_setChunk {l : List (Nat × Chunk)} {id : Nat} {c : Chunk} (c1 : Chunk)
    (h : l.find? (fun p => p.1 == id) = some (id, c)) :
    (setChunk l id c1).find? (fun p => p.1 == id) = some (id, c1) := by
  induction l with
  | nil => simp [List.find?] at h
  | cons p rest ih =>
    by_cases hpid : p.1 = id
    · simp [setChunk, List.find?, hpid]
    · have hne : (p.1 == id) = false := beq_eq_false_iff_ne.mpr hpid
      rw [List.find?_cons, hne] at h
      simpa [setChunk, List.find?, hpid, hne] using ih h

theorem setChunk_append_fresh {l : List (Nat × Chunk)} {id : Nat} (c0 c1 : Chunk)
    (hfresh : ∀ p ∈ l, p.1 ≠ id) :
    setChunk (l ++ [(id, c0)]) id c1 = l ++ [(id, c1)] := by
  unfold setChunk
  rw [List.map_append]
  congr 1
  · conv_rhs => rw [← List.map_id l]
    apply List.map_congr_left
    intro p hp
    simp [hfresh p hp]
  · simp

theorem find?_append_fresh {l : List (Nat × Chunk)} {id : Nat} (c : Chunk)
    (hfresh : ∀ p ∈ l, p.1 ≠ id) :
    (l ++ [(id, c)]).find? (fun p => p.1 == id) = some (id, c) := by
  induction l with
  | nil => simp [List.find?]
  | cons p rest ih =>
    have hne : (p.1 == id) = false :=
      beq_eq_false_iff_ne.mpr (hfresh p (List.mem_cons_self p rest))
    rw [List.cons_append, List.find?_cons, hne]
    exact ih (fun q hq => hfresh q (List.mem_cons_of_mem p hq))

/-!
Branch characterizations of `_try_appending_to_last_chunk`,
`_append_to_new_chunk` and `_synchronize_last_chunk`.
-/

theorem try_false_of_none {e : EngineState} {buffer : Bytes}
    (h : e.last_chunk_entry = .ok none) :
    e.try_appending_to_last_chunk buffer = (e, .ok false) := by
  unfold EngineState.try_appending_to_last_chunk
  rw [h]

theorem try_false_of_full {e : EngineState} {buffer : Bytes} {id : Nat} {c : Chunk}
    (h : e.last_chunk_entry = .ok (some (id, c)))
    (hfull : ¬ c.num_data_bytes < e.min_chunk_size_target) :
    e.try_appending_to_last_chunk buffer = (e, .ok false) := by
  unfold EngineState.try_appending_to_last_chunk
  rw [h]
  dsimp only
  rw [if_neg (by simpa [Chunk.is_under_min_space] using hfull)]

theorem try_false_of_ct {e : EngineState} {buffer : Bytes} {id : Nat} {c : Chunk}
    (h : e.last_chunk_entry = .ok (some (id, c)))
    (hunder : c.num_data_bytes < e.min_chunk_size_target)
    (hct : min_chunk_ct_for_data_size e.maxChunkSize
        (buffer.length + c.num_data_bytes) ≠
      min_chunk_ct_for_data_size e.maxChunkSize buffer.length) :
    e.try_appending_to_last_chunk buffer = (e, .ok false) := by
  unfold EngineState.try_appending_to_last_chunk
  rw [h]
  dsimp only
  rw [if_pos (by simpa [Chunk.is_under_min_space] using hunder), if_neg hct]

theorem try_true_spec {e : EngineState} {buffer : Bytes} {id : Nat} {c : Chunk}
    (h : e.last_chunk_entry = .ok (some (id, c)))
    (hunder : c.num_data_bytes < e.min_chunk_size_target)
    (hct : min_chunk_ct_for_data_size e.maxChunkSize
        (buffer.length + c.num_data_bytes) =
      min_chunk_ct_for_data_size e.maxChunkSize buffer.length)
    (hbs : buffer.length + c.num_data_bytes ≤ e.maxChunkSize) :
    e.try_appending_to_last_chunk buffer =
      ({ e with chunks := setChunk e.chunks id { c with data := c.data ++ buffer } },
        .ok true) := by
  unfold EngineState.try_appending_to_last_chunk
  rw [h]
  dsimp only
  rw [if_pos (by simpa [Chunk.is_under_min_space] using hunder), if_pos hct]
  have hfull : min buffer.length (e.maxChunkSize - c.num_data_bytes) = buffer.length := by
    omega
  rw [hfull, List.take_length]
  unfold Chunk.append_sample
  rw [if_neg (by unfold Chunk.num_data_bytes at hbs; omega)]

theorem append_to_new_chunk_spec {e : EngineState} {buffer : Bytes} {enc : ChunkIdEncoder}
    (henc : e.viewEncoder = .ok enc)
    (hb : buffer.length ≤ e.maxChunkSize) :
    e.append_to_new_chunk buffer =
      ({ e with encoder := some (enc.generate_chunk_id e.nextId),
                nextId := e.nextId + 1,
                chunks := setChunk (e.chunks ++ [(e.nextId, Chunk.empty)]) e.nextId ⟨buffer, [], []⟩ },
        .ok ()) := by
  unfold EngineState.append_to_new_chunk EngineState.create_new_chunk
    EngineState.chunk_id_encoder
  rw [henc]
  dsimp only
  unfold Chunk.append_sample
  rw [if_neg (by simp [Chunk.empty]; omega)]
  simp [Chunk.empty]

theorem sync_spec {e : EngineState} {enc : ChunkIdEncoder} {id cnt nb : Nat}
    {sh : List Nat} {c : Chunk}
    (henc : e.encoder = some enc)
    (hrow : enc.rows.getLast? = some (id, cnt))
    (hfind : e.chunks.find? (fun p => p.1 == id) = some (id, c)) :
    e.synchronize_last_chunk 1 nb sh =
      ({ e with encoder := some ⟨enc.rows.dropLast ++ [(id, cnt + 1)]⟩,
                chunks := setChunk e.chunks id (c.update_headers nb 1 sh) }, .ok ()) := by
  unfold EngineState.synchronize_last_chunk
  rw [chunk_id_encoder_some henc, EngineState.eta_encoder henc]
  dsimp only
  unfold ChunkIdEncoder.register_samples_to_last_chunk_id
  rw [hrow]
  dsimp only
  unfold EngineState.last_chunk_entry
  have hrows : ((⟨enc.rows.dropLast ++ [(id, cnt + 1)]⟩ : ChunkIdEncoder)).rows.getLast? =
      some (id, cnt + 1) := by
    simp
  have hnc : ({ e with encoder := some ⟨enc.rows.dropLast ++ [(id, cnt + 1)]⟩ } :
      EngineState).num_chunks ≠ 0 := by
    unfold EngineState.num_chunks ChunkIdEncoder.num_chunks
    simp
  rw [if_neg hnc]
  dsimp only
  rw [hrows]
  dsimp only
  rw [show ({ e with encoder := some ⟨enc.rows.dropLast ++ [(id, cnt + 1)]⟩ } :
    EngineState).chunks = e.chunks from rfl, hfind]

/-- If combining does not raise the minimum chunk count and the buffer fits
one chunk, the combined data fits one chunk. -/
theorem combine_le {M b s : Nat} (hM : 0 < M) (hb : b ≤ M)
    (hct : min_chunk_ct_for_data_size M (b + s) = min_chunk_ct_for_data_size M b) :
    b + s ≤ M := by
  unfold min_chunk_ct_for_data_size at hct
  rcases Nat.eq_zero_or_pos b with hb0 | hb1
  · subst hb0
    have h0 : (0 + M - 1) / M = 0 := Nat.div_eq_of_lt (by omega)
    rw [h0] at hct
    have hs : 0 + s + M - 1 < M := by
      by_contra hcon
      push_neg at hcon
      have h1 : 1 ≤ (0 + s + M - 1) / M := by
        rw [Nat.le_div_iff_mul_le hM]
        omega
      omega
    omega
  · have h1 : (b + M - 1) / M = 1 := by
      have hle : 1 ≤ (b + M - 1) / M := by
        rw [Nat.le_div_iff_mul_le hM]
        omega
      have hlt : (b + M - 1) / M < 2 := by
        rw [Nat.div_lt_iff_lt_mul hM]
        omega
      omega
    rw [h1] at hct
    have h2 : b + s + M - 1 < 2 * M := by
      by_contra hcon
      push_neg at hcon
      have h3 : 2 ≤ (b + s + M - 1) / M := by
        rw [Nat.le_div_iff_mul_le hM]
        omega
      omega
    omega

theorem last_chunk_entry_mk {e : EngineState} {enc : ChunkIdEncoder} {id cnt : Nat}
    {c : Chunk} (henc : e.encoder = some enc)
    (hrow : enc.rows.getLast? = some (id, cnt))
    (hfind : e.chunks.find? (fun p => p.1 == id) = some (id, c)) :
    e.last_chunk_entry = .ok (some (id, c)) := by
  unfold EngineState.last_chunk_entry
  have hnc : e.num_chunks ≠ 0 := by
    unfold EngineState.num_chunks ChunkIdEncoder.num_chunks
    rw [henc]
    intro hz
    rw [List.length_eq_zero.mp hz] at hrow
    exact Option.noConfusion hrow
  rw [if_neg hnc, henc]
  dsimp only
  rw [hrow]
  dsimp only
  rw [hfind]

theorem last_chunk_entry_inv {e : EngineState} {id : Nat} {c : Chunk}
    (h : e.last_chunk_entry = .ok (some (id, c))) :
    ∃ enc cnt, e.encoder = some enc ∧ enc.rows.getLast? = some (id, cnt) ∧
      e.chunks.find? (fun p => p.1 == id) = some (id, c) := by
  unfold EngineState.last_chunk_entry at h
  split at h
  · exact absurd h (by simp)
  · split at h
    · exact absurd h (by simp)
    · rename_i enc henc
      split at h
      · exact absurd h (by simp)
      · rename_i idr cnt hrow
        split at h
        · rename_i p hfind
          have hkey : p.1 = idr := by
            have hb := List.find?_some hfind
            simpa using hb
          have hp : p = (id, c) := by
            simpa using h
          have hid : idr = id := by rw [← hkey, hp]
          subst hid
          refine ⟨enc, cnt, henc, hrow, ?_⟩
          rw [← hp]
          exact hfind
        · exact absurd h (by simp)

theorem update_headers_single (d : Bytes) (nb : Nat) (sh : List Nat) :
    (⟨d, [], []⟩ : Chunk).update_headers nb 1 sh = ⟨d, [sh], [(0, nb)]⟩ := by
  unfold Chunk.update_headers
  simp [List.range_succ]

/-- Full characterization of a successful `_append_bytes` that combines the
sample into the last chunk. -/
theorem append_bytes_combine_spec {e : EngineState} {buffer : Bytes} {shape : List Nat}
    {dtype : String} {id cnt : Nat} {c : Chunk} {enc : ChunkIdEncoder}
    (hcompat : e.meta.check_compatibility shape dtype = .ok ())
    (henc : e.encoder = some enc)
    (hrow : enc.rows.getLast? = some (id, cnt))
    (hfind : e.chunks.find? (fun p => p.1 == id) = some (id, c))
    (hunder : c.num_data_bytes < e.min_chunk_size_target)
    (hct : min_chunk_ct_for_data_size e.maxChunkSize
        (buffer.length + c.num_data_bytes) =
      min_chunk_ct_for_data_size e.maxChunkSize buffer.length)
    (hbs : buffer.length + c.num_data_bytes ≤ e.maxChunkSize) :
    e.append_bytes buffer shape dtype =
      ({ e with meta := e.meta.update shape dtype 1,
                encoder := some ⟨enc.rows.dropLast ++ [(id, cnt + 1)]⟩,
                chunks := setChunk e.chunks id (({ c with data := c.data ++ buffer }).update_headers buffer.length 1 shape) },
        .ok ()) := by
  unfold EngineState.append_bytes
  rw [hcompat]
  dsimp only
  have hlast1 : ({ e with meta := e.meta.update shape dtype 1 } :
      EngineState).last_chunk_entry = .ok (some (id, c)) := by
    rw [last_chunk_entry_set_meta]
    exact last_chunk_entry_mk henc hrow hfind
  rw [try_true_spec hlast1 hunder hct hbs]
  dsimp only
  have hs := @sync_spec
    { e with meta := e.meta.update shape dtype 1,
             chunks := setChunk e.chunks id { c with data := c.data ++ buffer } }
    enc id cnt buffer.length shape { c with data := c.data ++ buffer }
    henc hrow (find?_setChunk { c with data := c.data ++ buffer } hfind)
  rw [hs, setChunk_setChunk]

/-- Full characterization of a successful `_append_bytes` that writes the
sample into a freshly created chunk (after the last-chunk attempt declined). -/
theorem append_bytes_via_new {e : EngineState} {buffer : Bytes} {shape : List Nat}
    {dtype : String} {enc : ChunkIdEncoder}
    (hcompat : e.meta.check_compatibility shape dtype = .ok ())
    (htry : ({ e with meta := e.meta.update shape dtype 1 } :
        EngineState).try_appending_to_last_chunk buffer =
      ({ e with meta := e.meta.update shape dtype 1 }, .ok false))
    (hmat : e.encoder = some enc ∨ (e.encoder = none ∧ enc = ⟨[]⟩ ∧ e.meta.length = 0))
    (hb : buffer.length ≤ e.maxChunkSize)
    (hfresh : ∀ p ∈ e.chunks, p.1 < e.nextId) :
    e.append_bytes buffer shape dtype =
      ({ e with meta := e.meta.update shape dtype 1,
                encoder := some ⟨enc.rows ++ [(e.nextId, enc.num_samples + 1)]⟩,
                nextId := e.nextId + 1,
                chunks := e.chunks ++ [(e.nextId, newSampleChunk buffer shape)] },
        .ok ()) := by
  have hfresh1 : ∀ p ∈ e.chunks, p.1 ≠ e.nextId :=
    fun p hp => Nat.ne_of_lt (hfresh p hp)
  have hview1 : ({ e with meta := e.meta.update shape dtype 1 } :
      EngineState).viewEncoder = .ok enc := by
    rcases hmat with henc | ⟨henc, hencv, hlen⟩
    · unfold EngineState.viewEncoder
      rw [show ({ e with meta := e.meta.update shape dtype 1 } :
        EngineState).encoder = e.encoder from rfl, henc]
    · unfold EngineState.viewEncoder
      rw [show ({ e with meta := e.meta.update shape dtype 1 } :
        EngineState).encoder = e.encoder from rfl, henc]
      rw [show ({ e with meta := e.meta.update shape dtype 1 } :
        EngineState).meta = e.meta.update shape dtype 1 from rfl,
        TensorMeta.length_update, hlen]
      rw [if_neg (by omega), hencv]
  unfold EngineState.append_bytes
  rw [hcompat]
  dsimp only
  rw [htry]
  dsimp only
  rw [append_to_new_chunk_spec hview1 hb]
  dsimp only
  rw [setChunk_append_fresh Chunk.empty ⟨buffer, [], []⟩ hfresh1]
  have hs := @sync_spec
    { e with meta := e.meta.update shape dtype 1,
             encoder := some (enc.generate_chunk_id e.nextId),
             nextId := e.nextId + 1,
             chunks := e.chunks ++ [(e.nextId, ⟨buffer, [], []⟩)] }
    (enc.generate_chunk_id e.nextId) e.nextId enc.num_samples buffer.length shape
    ⟨buffer, [], []⟩
    rfl (by unfold ChunkIdEncoder.generate_chunk_id; simp)
    (find?_append_fresh ⟨buffer, [], []⟩ hfresh1)
  rw [hs]
  rw [show (enc.generate_chunk_id e.nextId).rows.dropLast = enc.rows by
    unfold ChunkIdEncoder.generate_chunk_id; simp]
  rw [setChunk_append_fresh ⟨buffer, [], []⟩ _ hfresh1, update_headers_single]
  unfold newSampleChunk
  rfl

theorem new_state_counts (e : EngineState) (m : TensorMeta) (nsc : Chunk)
    (enc : ChunkIdEncoder)
    (hmat : e.encoder = some enc ∨ (e.encoder = none ∧ enc = ⟨[]⟩))
    (hfresh1 : ∀ p ∈ e.chunks, p.1 ≠ e.nextId) :
    ({ e with meta := m,
              encoder := some ⟨enc.rows ++ [(e.nextId, enc.num_samples + 1)]⟩,
              nextId := e.nextId + 1,
              chunks := e.chunks ++ [(e.nextId, nsc)] } : EngineState).num_chunks =
        e.num_chunks + 1 ∧
    ({ e with meta := m,
              encoder := some ⟨enc.rows ++ [(e.nextId, enc.num_samples + 1)]⟩,
              nextId := e.nextId + 1,
              chunks := e.chunks ++ [(e.nextId, nsc)] } : EngineState).num_samples =
        e.num_samples + 1 ∧
    findChunk ({ e with meta := m, encoder := some ⟨enc.rows ++ [(e.nextId, enc.num_samples + 1)]⟩, nextId := e.nextId + 1, chunks := e.chunks ++ [(e.nextId, nsc)] }) e.nextId = some nsc := by
  refine ⟨?_, ?_, ?_⟩
  · show (⟨enc.rows ++ [(e.nextId, enc.num_samples + 1)]⟩ :
      ChunkIdEncoder).num_chunks = e.num_chunks + 1
    rcases hmat with henc | ⟨henc, hencv⟩
    · unfold EngineState.num_chunks
      rw [henc]
      unfold ChunkIdEncoder.num_chunks
      simp
    · unfold EngineState.num_chunks
      rw [henc]
      subst hencv
      unfold ChunkIdEncoder.num_chunks
      simp
  · show (⟨enc.rows ++ [(e.nextId, enc.num_samples + 1)]⟩ :
      ChunkIdEncoder).num_samples = e.num_samples + 1
    have hleft : (⟨enc.rows ++ [(e.nextId, enc.num_samples + 1)]⟩ :
        ChunkIdEncoder).num_samples = enc.num_samples + 1 := by
      unfold ChunkIdEncoder.num_samples
      simp
    rw [hleft]
    rcases hmat with henc | ⟨henc, hencv⟩
    · unfold EngineState.num_samples
      rw [henc]
    · unfold EngineState.num_samples
      rw [henc]
      subst hencv
      rfl
  · unfold findChunk
    show (List.find? (fun p => p.1 == e.nextId) (e.chunks ++ [(e.nextId, nsc)])).map
      Prod.snd = some nsc
    rw [find?_append_fresh nsc hfresh1]
    rfl

theorem combine_state_counts (e : EngineState) (m : TensorMeta) {c0 : Chunk} (c1 : Chunk)
    (enc : ChunkIdEncoder) (id cnt : Nat)
    (henc : e.encoder = some enc)
    (hrow : enc.rows.getLast? = some (id, cnt))
    (hfind : e.chunks.find? (fun p => p.1 == id) = some (id, c0)) :
    ({ e with meta := m,
              encoder := some ⟨enc.rows.dropLast ++ [(id, cnt + 1)]⟩,
              chunks := setChunk e.chunks id c1 } : EngineState).num_chunks =
        e.num_chunks ∧
    ({ e with meta := m,
              encoder := some ⟨enc.rows.dropLast ++ [(id, cnt + 1)]⟩,
              chunks := setChunk e.chunks id c1 } : EngineState).num_samples =
        e.num_samples + 1 ∧
    findChunk ({ e with meta := m, encoder := some ⟨enc.rows.dropLast ++ [(id, cnt + 1)]⟩, chunks := setChunk e.chunks id c1 }) id = some c1 := by
  have hne : enc.rows.length ≠ 0 := by
    intro hz
    rw [List.length_eq_zero.mp hz] at hrow
    exact Option.noConfusion hrow
  refine ⟨?_, ?_, ?_⟩
  · show (⟨enc.rows.dropLast ++ [(id, cnt + 1)]⟩ :
      ChunkIdEncoder).num_chunks = e.num_chunks
    unfold EngineState.num_chunks
    rw [henc]
    unfold ChunkIdEncoder.num_chunks
    simp only [List.length_append, List.length_dropLast, List.length_singleton]
    omega
  · show (⟨enc.rows.dropLast ++ [(id, cnt + 1)]⟩ :
      ChunkIdEncoder).num_samples = e.num_samples + 1
    unfold EngineState.num_samples
    rw [henc]
    dsimp only
    unfold ChunkIdEncoder.num_samples
    rw [hrow]
    simp
  · unfold findChunk
    show (List.find? (fun p => p.1 == id) (setChunk e.chunks id c1)).map Prod.snd = some c1
    rw [find?_setChunk c1 hfind]
    rfl

/-- C4: the `_append_bytes` packing policy, for a buffer that fits one chunk
and a compatible sample.  With no last chunk, a new chunk is created holding
the whole buffer; with a last chunk at or above `min_chunk_size_target`, a
new chunk is created; otherwise the buffer is appended to the last chunk iff
`ceil((b+s)/max) = ceil(b/max)` and a new chunk is created when the counts
differ.  In every case exactly one sample is registered with the encoder and
the target chunk receives one shape and one byte-range header row. -/
theorem c4_append_bytes_policy (e : EngineState) (buffer : Bytes) (shape : List Nat)
    (dtype : String)
    (hb : buffer.length ≤ e.maxChunkSize)
    (hcompat : e.meta.check_compatibility shape dtype = .ok ())
    (hfresh : ∀ p ∈ e.chunks, p.1 < e.nextId) :
    (e.last_chunk_entry = .ok none → (e.encoder = none → e.meta.length = 0) →
      ∃ e1, e.append_bytes buffer shape dtype = (e1, .ok ()) ∧
        e1.num_chunks = e.num_chunks + 1 ∧ e1.num_samples = e.num_samples + 1 ∧
        findChunk e1 e.nextId = some (newSampleChunk buffer shape)) ∧
    (∀ id c, e.last_chunk_entry = .ok (some (id, c)) →
      ¬ c.num_data_bytes < e.min_chunk_size_target →
      ∃ e1, e.append_bytes buffer shape dtype = (e1, .ok ()) ∧
        e1.num_chunks = e.num_chunks + 1 ∧ e1.num_samples = e.num_samples + 1 ∧
        findChunk e1 e.nextId = some (newSampleChunk buffer shape)) ∧
    (∀ id c, e.last_chunk_entry = .ok (some (id, c)) →
      c.num_data_bytes < e.min_chunk_size_target →
      (min_chunk_ct_for_data_size e.maxChunkSize
          (buffer.length + c.num_data_bytes) =
         min_chunk_ct_for_data_size e.maxChunkSize buffer.length →
        ∃ e1, e.append_bytes buffer shape dtype = (e1, .ok ()) ∧
          e1.num_chunks = e.num_chunks ∧ e1.num_samples = e.num_samples + 1 ∧
          findChunk e1 id = some (({ c with data := c.data ++ buffer }).update_headers buffer.length 1 shape)) ∧
      (min_chunk_ct_for_data_size e.maxChunkSize
          (buffer.length + c.num_data_bytes) ≠
         min_chunk_ct_for_data_size e.maxChunkSize buffer.length →
        ∃ e1, e.append_bytes buffer shape dtype = (e1, .ok ()) ∧
          e1.num_chunks = e.num_chunks + 1 ∧ e1.num_samples = e.num_samples + 1 ∧
          findChunk e1 e.nextId = some (newSampleChunk buffer shape))) := by
  have hfresh1 : ∀ p ∈ e.chunks, p.1 ≠ e.nextId :=
    fun p hp => Nat.ne_of_lt (hfresh p hp)
  refine ⟨?_, ?_, ?_⟩
  · -- no last chunk: new chunk
    intro hnone hlen0
    have hmat : e.encoder = some (e.encoder.getD ⟨[]⟩) ∨
        (e.encoder = none ∧ e.encoder.getD ⟨[]⟩ = ⟨[]⟩ ∧ e.meta.length = 0) := by
      cases hev : e.encoder with
      | none => exact Or.inr ⟨rfl, rfl, hlen0 hev⟩
      | some enc0 => exact Or.inl rfl
    have htry := @try_false_of_none { e with meta := e.meta.update shape dtype 1 }
      buffer (by rw [last_chunk_entry_set_meta]; exact hnone)
    have happ := append_bytes_via_new hcompat htry hmat hb hfresh
    refine ⟨_, happ, ?_⟩
    exact new_state_counts e _ _ (e.encoder.getD ⟨[]⟩)
      (hmat.imp (fun h => h) (fun h => ⟨h.1, h.2.1⟩)) hfresh1
  · -- last chunk full enough: new chunk
    intro id c hlast hfull
    obtain ⟨enc, cnt, henc, hrow, hfind⟩ := last_chunk_entry_inv hlast
    have htry := @try_false_of_full { e with meta := e.meta.update shape dtype 1 }
      buffer _ _ (by rw [last_chunk_entry_set_meta]; exact hlast) hfull
    have happ := append_bytes_via_new hcompat htry (Or.inl henc) hb hfresh
    refine ⟨_, happ, ?_⟩
    exact new_state_counts e _ _ enc (Or.inl henc) hfresh1
  · -- last chunk under the target: combine iff the counts agree
    intro id c hlast hunder
    obtain ⟨enc, cnt, henc, hrow, hfind⟩ := last_chunk_entry_inv hlast
    constructor
    · intro hct
      have hM : 0 < e.maxChunkSize := by
        have hx : e.maxChunkSize / 2 ≤ e.maxChunkSize := Nat.div_le_self _ _
        unfold EngineState.min_chunk_size_target at hunder
        omega
      have hbs : buffer.length + c.num_data_bytes ≤ e.maxChunkSize :=
        combine_le hM hb hct
      have happ := append_bytes_combine_spec hcompat henc hrow hfind hunder hct hbs
      refine ⟨_, happ, ?_⟩
      exact combine_state_counts e _ _ enc id cnt henc hrow hfind
    · intro hct
      have htry := @try_false_of_ct { e with meta := e.meta.update shape dtype 1 }
        buffer _ _ (by rw [last_chunk_entry_set_meta]; exact hlast) hunder hct
      have happ := append_bytes_via_new hcompat htry (Or.inl henc) hb hfresh
      refine ⟨_, happ, ?_⟩
      exact new_state_counts e _ _ enc (Or.inl henc) hfresh1

/-- C4 witness: the very first append on a fresh engine lands in a fresh
chunk holding the whole buffer, with one sample registered. -/
theorem c4_append_bytes_policy_witness :
    ∃ e1, eng64.append_bytes [1, 2, 3] [3] "u8" = (e1, .ok ()) ∧
      e1.num_chunks = eng64.num_chunks + 1 ∧ e1.num_samples = eng64.num_samples + 1 ∧
      findChunk e1 eng64.nextId = some (newSampleChunk [1, 2, 3] [3]) :=
  (c4_append_bytes_policy eng64 [1, 2, 3] [3] "u8" (by decide) rfl
    (by intro p hp; simp [eng64] at hp)).1 rfl (fun _ => rfl)

/-!
Facts about `buildChunk`: how it grows by one sample and what its headers
say at each local index.
-/

theorem lenSum_nil : lenSum [] = 0 := rfl

theorem lenSum_cons (x : StoredSample) (xs : List StoredSample) :
    lenSum (x :: xs) = x.2.length + lenSum xs := by
  unfold lenSum
  simp

theorem offsetsFrom_append (s : Nat) (xs : List StoredSample) (x : StoredSample) :
    offsetsFrom s (xs ++ [x]) =
      offsetsFrom s xs ++ [(s + lenSum xs, s + lenSum xs + x.2.length)] := by
  induction xs generalizing s with
  | nil => simp [offsetsFrom, lenSum_nil]
  | cons y rest ih =>
    rw [List.cons_append]
    rw [offsetsFrom, offsetsFrom, ih, lenSum_cons]
    simp [Nat.add_assoc]

theorem offsetsFrom_last_end (s : Nat) (xs : List StoredSample) :
    (((offsetsFrom s xs).getLast?).map Prod.snd).getD s = s + lenSum xs := by
  induction xs using List.reverseRecOn with
  | nil => simp [offsetsFrom, lenSum_nil]
  | append_singleton ys y ih =>
    rw [offsetsFrom_append]
    simp [lenSum, List.getLast?_concat, Nat.add_assoc]

theorem buildChunk_data_length (xs : List StoredSample) :
    (buildChunk xs).data.length = lenSum xs := by
  unfold buildChunk lenSum
  simp only [List.length_flatten, List.map_map]
  rfl

theorem buildChunk_snoc (xs : List StoredSample) (x : StoredSample) :
    buildChunk (xs ++ [x]) =
      ({ buildChunk xs with data := (buildChunk xs).data ++ x.2 }).update_headers
        x.2.length 1 x.1 := by
  unfold buildChunk Chunk.update_headers
  simp only [Chunk.mk.injEq, List.map_append, List.flatten_append, List.map_cons,
    List.map_nil, List.flatten_cons, List.flatten_nil, List.append_nil,
    List.replicate_one, List.range_succ, List.range_zero, Nat.div_one]
  refine ⟨trivial, trivial, ?_⟩
  rw [offsetsFrom_append]
  rw [show (((offsetsFrom 0 xs).getLast?).map Prod.snd).getD 0 = 0 + lenSum xs from
    offsetsFrom_last_end 0 xs]
  simp

theorem offsetsFrom_get :
    ∀ (xs : List StoredSample) (s k : Nat) (x : StoredSample), xs.get? k = some x →
      (offsetsFrom s xs).get? k =
        some (s + lenSum (xs.take k), s + lenSum (xs.take k) + x.2.length) := by
  intro xs
  induction xs with
  | nil =>
    intro s k x hk
    simp at hk
  | cons y rest ih =>
    intro s k x hk
    cases k with
    | zero =>
      simp only [List.get?_cons_zero, Option.some.injEq] at hk
      subst hk
      simp [offsetsFrom, lenSum_nil]
    | succ k =>
      simp only [List.get?_cons_succ] at hk
      rw [offsetsFrom]
      rw [List.get?_cons_succ, ih (s + y.2.length) k x hk]
      simp [List.take_succ_cons, lenSum_cons, Nat.add_assoc]

theorem flatten_slice :
    ∀ (xs : List StoredSample) (k : Nat) (x : StoredSample), xs.get? k = some x →
      (((xs.map Prod.snd).flatten.drop (lenSum (xs.take k))).take x.2.length) = x.2 := by
  intro xs
  induction xs with
  | nil =>
    intro k x hk
    simp at hk
  | cons y rest ih =>
    intro k x hk
    cases k with
    | zero =>
      simp only [List.get?_cons_zero, Option.some.injEq] at hk
      subst hk
      simp [lenSum_nil, List.take_left]
    | succ k =>
      simp only [List.get?_cons_succ] at hk
      rw [List.take_succ_cons, lenSum_cons]
      rw [List.map_cons, List.flatten_cons]
      rw [← List.drop_drop, List.drop_left]
      exact ih k x hk

/-- Reading local index `k` of a built chunk yields the `k`-th sample's
shape and exactly its byte slice. -/
theorem buildChunk_read {xs : List StoredSample} {k : Nat} {x : StoredSample}
    (hk : xs.get? k = some x) :
    (buildChunk xs).shapes.get? k = some x.1 ∧
    (buildChunk xs).ranges.get? k =
      some (lenSum (xs.take k), lenSum (xs.take k) + x.2.length) ∧
    (((buildChunk xs).data.drop (lenSum (xs.take k))).take
      ((lenSum (xs.take k) + x.2.length) - lenSum (xs.take k))) = x.2 := by
  refine ⟨?_, ?_, ?_⟩
  · unfold buildChunk
    rw [List.get?_map, hk]
    rfl
  · unfold buildChunk
    have h := offsetsFrom_get xs 0 k x hk
    simpa using h
  · unfold buildChunk
    rw [show (lenSum (xs.take k) + x.2.length) - lenSum (xs.take k) =
      x.2.length by omega]
    exact flatten_slice xs k x hk

/-!
Facts about `storeSeg`: stability under store growth, the snoc step, and
indexing inside a segment.
-/

theorem storeSeg_stable {stored : List StoredSample} {x : StoredSample} {lo hi : Nat}
    (hhi : hi ≤ stored.length) :
    storeSeg (stored ++ [x]) lo hi = storeSeg stored lo hi := by
  unfold storeSeg
  by_cases hlo : lo ≤ stored.length
  · rw [List.drop_append_of_le_length hlo]
    rw [List.take_append_of_le_length (by simp; omega)]
  · rw [List.drop_eq_nil_of_le (le_of_not_le hlo)]
    have hx : (stored ++ [x]).drop lo = [] ∨ (stored ++ [x]).drop lo = [x] := by
      rcases Nat.lt_or_ge lo (stored.length + 1) with hlt | hge
      · right
        rw [show lo = stored.length from by omega,
          List.drop_append_of_le_length (le_refl _), List.drop_length]
        rfl
      · left
        apply List.drop_eq_nil_of_le
        simp only [List.length_append, List.length_singleton]
        omega
    rcases hx with hx | hx
    · rw [hx]
    · rw [hx]
      have : hi - lo = 0 := by omega
      rw [this]
      rfl

theorem storeSeg_snoc {stored : List StoredSample} (x : StoredSample) {lo : Nat}
    (hlo : lo ≤ stored.length) :
    storeSeg (stored ++ [x]) lo (stored.length + 1) =
      storeSeg stored lo stored.length ++ [x] := by
  unfold storeSeg
  rw [List.drop_append_of_le_length hlo]
  have h1 : (List.drop lo stored ++ [x]).length ≤ stored.length + 1 - lo := by
    simp only [List.length_append, List.length_drop, List.length_singleton]
    omega
  have h2 : (List.drop lo stored).length ≤ stored.length - lo := by
    simp only [List.length_drop]
    omega
  rw [List.take_of_length_le h1, List.take_of_length_le h2]

theorem storeSeg_last {stored : List StoredSample} (x : StoredSample) :
    storeSeg (stored ++ [x]) stored.length (stored.length + 1) = [x] := by
  unfold storeSeg
  rw [List.drop_append_of_le_length (le_refl _), List.drop_length]
  simp

theorem storeSeg_get {stored : List StoredSample} {lo hi i : Nat}
    (hlo : lo ≤ i) (hihi : i < hi) (hhi : hi ≤ stored.length) :
    (storeSeg stored lo hi).get? (i - lo) = stored.get? i := by
  unfold storeSeg
  rw [List.get?_take (by omega), List.get?_drop]
  congr 1
  omega

theorem storeSeg_length {stored : List StoredSample} {lo hi : Nat}
    (hhi : hi ≤ stored.length) : (storeSeg stored lo hi).length = hi - lo := by
  unfold storeSeg
  simp only [List.length_take, List.length_drop]
  omega

/-!
Facts about `SegOk`: bounds, id bookkeeping, and its evolution under the two
write paths.
-/

theorem SegOk_lo_le {stored : List StoredSample} :
    ∀ {rows : List (Nat × Nat)} {chunks : List (Nat × Chunk)} {lo : Nat},
      SegOk stored rows chunks lo → lo ≤ stored.length := by
  intro rows
  induction rows with
  | nil =>
    intro chunks lo h
    cases chunks with
    | nil => exact le_of_eq h
    | cons p ps => exact absurd h (by simp [SegOk])
  | cons r rest ih =>
    intro chunks lo h
    cases chunks with
    | nil => exact absurd h (by simp [SegOk])
    | cons p ps =>
      obtain ⟨-, hlt, -, -, hrec⟩ := h
      exact le_trans (le_of_lt hlt) (ih hrec)

theorem SegOk_ids {stored : List StoredSample} :
    ∀ {rows : List (Nat × Nat)} {chunks : List (Nat × Chunk)} {lo : Nat},
      SegOk stored rows chunks lo → rows.map Prod.fst = chunks.map Prod.fst := by
  intro rows
  induction rows with
  | nil =>
    intro chunks lo h
    cases chunks with
    | nil => rfl
    | cons p ps => exact absurd h (by simp [SegOk])
  | cons r rest ih =>
    intro chunks lo h
    cases chunks with
    | nil => exact absurd h (by simp [SegOk])
    | cons p ps =>
      obtain ⟨hid, -, -, -, hrec⟩ := h
      simp only [List.map_cons]
      rw [hid, ih hrec]

theorem SegOk_last_cnt {stored : List StoredSample} :
    ∀ {rows : List (Nat × Nat)} {chunks : List (Nat × Chunk)} {lo id cnt : Nat},
      SegOk stored rows chunks lo → rows.getLast? = some (id, cnt) →
      cnt = stored.length := by
  intro rows
  induction rows with
  | nil =>
    intro chunks lo id cnt h hlast
    exact absurd hlast (by simp)
  | cons r rest ih =>
    intro chunks lo id cnt h hlast
    cases chunks with
    | nil => exact absurd h (by simp [SegOk])
    | cons p ps =>
      obtain ⟨-, -, -, -, hrec⟩ := h
      cases rest with
      | nil =>
        simp only [List.getLast?_singleton, Option.some.injEq] at hlast
        have hr2 : r.2 = stored.length := by
          cases ps with
          | nil => exact hrec
          | cons q qs => exact absurd hrec (by simp [SegOk])
        rw [hlast] at hr2
        exact hr2
      | cons r1 rest1 =>
        rw [List.getLast?_cons_cons] at hlast
        exact ih hrec hlast

theorem mem_of_getLast {α : Type} :
    ∀ {l : List α} {a : α}, l.getLast? = some a → a ∈ l := by
  intro l
  induction l with
  | nil =>
    intro a h
    exact absurd h (by simp)
  | cons x xs ih =>
    intro a h
    cases xs with
    | nil =>
      simp only [List.getLast?_singleton, Option.some.injEq] at h
      simp [h]
    | cons y ys =>
      rw [List.getLast?_cons_cons] at h
      exact List.mem_cons_of_mem x (ih h)

theorem mem_of_mem_dropLast {α : Type} :
    ∀ {l : List α} {a : α}, a ∈ l.dropLast → a ∈ l := by
  intro l
  induction l with
  | nil =>
    intro a h
    simp at h
  | cons x xs ih =>
    intro a h
    cases xs with
    | nil => simp at h
    | cons y ys =>
      rw [List.dropLast_cons₂] at h
      rcases List.mem_cons.mp h with h | h
      · exact h ▸ List.mem_cons_self x (y :: ys)
      · exact List.mem_cons_of_mem x (ih h)

theorem SegOk_find_last {stored : List StoredSample} :
    ∀ {rows : List (Nat × Nat)} {chunks : List (Nat × Chunk)} {lo id cnt : Nat},
      SegOk stored rows chunks lo → rows.getLast? = some (id, cnt) →
      ∃ c, chunks.find? (fun p => p.1 == id) = some (id, c) := by
  intro rows
  induction rows with
  | nil =>
    intro chunks lo id cnt h hlast
    exact absurd hlast (by simp)
  | cons r rest ih =>
    intro chunks lo id cnt h hlast
    cases chunks with
    | nil => exact absurd h (by simp [SegOk])
    | cons p ps =>
      obtain ⟨hid, -, -, hids, hrec⟩ := h
      cases rest with
      | nil =>
        simp only [List.getLast?_singleton, Option.some.injEq] at hlast
        have hp1 : p.1 = id := by rw [hid, hlast]
        refine ⟨p.2, ?_⟩
        rw [List.find?_cons, show (p.1 == id) = true from by rw [hp1]; simp]
        rw [show p = (id, p.2) from by rw [← hp1]]
      | cons r1 rest1 =>
        rw [List.getLast?_cons_cons] at hlast
        obtain ⟨c, hc⟩ := ih hrec hlast
        have hltid : r.1 < id := by
          have hm := hids (id, cnt) (mem_of_getLast hlast)
          simpa using hm
        have hkey : (p.1 == id) = false := by
          rw [hid]
          exact beq_eq_false_iff_ne.mpr (Nat.ne_of_lt hltid)
        rw [List.find?_cons, hkey]
        exact ⟨c, hc⟩

/-- Combining a sample into the last chunk preserves the segmentation
invariant: the last row's count grows by one and the last chunk becomes the
built chunk of its extended segment. -/
theorem SegOk_combine {stored : List StoredSample} (x : StoredSample) :
    ∀ {rows : List (Nat × Nat)} {chunks : List (Nat × Chunk)} {lo id cnt : Nat}
      {c : Chunk},
      SegOk stored rows chunks lo →
      rows.getLast? = some (id, cnt) →
      chunks.find? (fun p => p.1 == id) = some (id, c) →
      SegOk (stored ++ [x]) (rows.dropLast ++ [(id, cnt + 1)])
        (setChunk chunks id
          (({ c with data := c.data ++ x.2 }).update_headers x.2.length 1 x.1)) lo := by
  intro rows
  induction rows with
  | nil =>
    intro chunks lo id cnt c h hlast hfind
    exact absurd hlast (by simp)
  | cons r rest ih =>
    intro chunks lo id cnt c h hlast hfind
    cases chunks with
    | nil => exact absurd h (by simp [SegOk])
    | cons p ps =>
      obtain ⟨hid, hlt, hch, hids, hrec⟩ := h
      cases rest with
      | nil =>
        have hps : ps = [] := by
          cases ps with
          | nil => rfl
          | cons q qs => exact absurd hrec (by simp [SegOk])
        subst hps
        simp only [List.getLast?_singleton, Option.some.injEq] at hlast
        have hr2 : r.2 = stored.length := hrec
        have hcnt : cnt = stored.length := by rw [← hr2, hlast]
        have hp1 : p.1 = id := by rw [hid, hlast]
        have hpc : p.2 = c := by
          rw [List.find?_cons, show (p.1 == id) = true from by rw [hp1]; simp] at hfind
          have : p = (id, c) := by simpa using hfind
          rw [this]
        have hseg : c = buildChunk (storeSeg stored lo cnt) := by
          rw [← hpc, hch, hlast]
        have hset : setChunk [p] id
            (({ c with data := c.data ++ x.2 }).update_headers x.2.length 1 x.1) =
            [(id, (({ c with data := c.data ++ x.2 }).update_headers x.2.length 1 x.1))] := by
          simp [setChunk, hp1]
        rw [List.dropLast_single, List.nil_append, hset]
        refine ⟨rfl, by rw [hlast] at hlt; simpa using Nat.lt_succ_of_lt hlt, ?_,
          by simp, by simp [SegOk, hcnt]⟩
        rw [hseg, ← buildChunk_snoc]
        rw [hcnt, storeSeg_snoc x (by rw [hlast] at hlt; omega)]
      | cons r1 rest1 =>
        rw [List.getLast?_cons_cons] at hlast
        have hltid : r.1 < id := by
          have hm := hids (id, cnt) (mem_of_getLast hlast)
          simpa using hm
        have hp1ne : p.1 ≠ id := by
          rw [hid]
          exact Nat.ne_of_lt hltid
        have hkey : (p.1 == id) = false := beq_eq_false_iff_ne.mpr hp1ne
        rw [List.find?_cons, hkey] at hfind
        have hset : setChunk (p :: ps) id
            (({ c with data := c.data ++ x.2 }).update_headers x.2.length 1 x.1) =
            p :: setChunk ps id
              (({ c with data := c.data ++ x.2 }).update_headers x.2.length 1 x.1) := by
          simp [setChunk, hp1ne]
        rw [List.dropLast_cons₂, hset, List.cons_append]
        refine ⟨hid, hlt, ?_, ?_, ih hrec hlast hfind⟩
        · rw [storeSeg_stable (SegOk_lo_le hrec)]
          exact hch
        · intro q hq
          rcases List.mem_append.mp hq with hq | hq
          · exact hids q (mem_of_mem_dropLast hq)
          · simp only [List.mem_singleton] at hq
            rw [hq]
            exact hltid

/-- Creating a fresh chunk for the sample preserves the segmentation
invariant: one new row and one new blob are appended, covering exactly the
new sample. -/
theorem SegOk_new {stored : List StoredSample} (x : StoredSample) (nid : Nat) :
    ∀ {rows : List (Nat × Nat)} {chunks : List (Nat × Chunk)} {lo : Nat},
      SegOk stored rows chunks lo →
      (∀ q ∈ rows, q.1 < nid) →
      SegOk (stored ++ [x]) (rows ++ [(nid, stored.length + 1)])
        (chunks ++ [(nid, buildChunk [x])]) lo := by
  intro rows
  induction rows with
  | nil =>
    intro chunks lo h hids
    cases chunks with
    | cons p ps => exact absurd h (by simp [SegOk])
    | nil =>
      have hlo : lo = stored.length := h
      rw [List.nil_append, List.nil_append]
      refine ⟨rfl, by omega, ?_, by simp, by simp [SegOk]⟩
      rw [hlo, storeSeg_last]
  | cons r rest ih =>
    intro chunks lo h hids
    cases chunks with
    | nil => exact absurd h (by simp [SegOk])
    | cons p ps =>
      obtain ⟨hid, hlt, hch, hids0, hrec⟩ := h
      rw [List.cons_append, List.cons_append]
      refine ⟨hid, hlt, ?_, ?_, ih hrec (fun q hq => hids q (List.mem_cons_of_mem r hq))⟩
      · rw [storeSeg_stable (SegOk_lo_le hrec)]
        exact hch
      · intro q hq
        rcases List.mem_append.mp hq with hq | hq
        · exact hids0 q hq
        · simp only [List.mem_singleton] at hq
          rw [hq]
          exact hids r (List.mem_cons_self r rest)

theorem setChunk_key_mem {l : List (Nat × Chunk)} {id : Nat} {c : Chunk} :
    ∀ p ∈ setChunk l id c, ∃ q ∈ l, p.1 = q.1 := by
  intro p hp
  unfold setChunk at hp
  obtain ⟨q, hq, hpq⟩ := List.mem_map.mp hp
  refine ⟨q, hq, ?_⟩
  by_cases hqid : q.1 = id
  · rw [← hpq]
    simp [hqid]
  · rw [← hpq]
    simp [hqid]

theorem buildChunk_single (x : StoredSample) :
    buildChunk [x] = ⟨x.2, [x.1], [(0, x.2.length)]⟩ := by
  unfold buildChunk offsetsFrom
  simp [offsetsFrom]

/-- The state produced by the new-chunk path satisfies the invariant for the
extended store. -/
theorem good_new_result {e : EngineState} {stored : List StoredSample}
    {buffer : Bytes} {shape : List Nat} {dtype : String} {enc : ChunkIdEncoder}
    (hlen : e.meta.length = stored.length)
    (hfresh : ∀ p ∈ e.chunks, p.1 < e.nextId)
    (hseg : SegOk stored enc.rows e.chunks 0)
    (hns : enc.num_samples = stored.length)
    (hrowlt : ∀ q ∈ enc.rows, q.1 < e.nextId) :
    Good ({ e with meta := e.meta.update shape dtype 1,
                   encoder := some ⟨enc.rows ++ [(e.nextId, enc.num_samples + 1)]⟩,
                   nextId := e.nextId + 1,
                   chunks := e.chunks ++ [(e.nextId, newSampleChunk buffer shape)] })
      (stored ++ [(shape, buffer)]) := by
  refine ⟨?_, ?_, ?_⟩
  · show (e.meta.update shape dtype 1).length = (stored ++ [(shape, buffer)]).length
    rw [TensorMeta.length_update, hlen]
    simp
  · intro p hp
    rcases List.mem_append.mp hp with hp | hp
    · show p.1 < e.nextId + 1
      exact Nat.lt_succ_of_lt (hfresh p hp)
    · simp only [List.mem_singleton] at hp
      rw [hp]
      show e.nextId < e.nextId + 1
      omega
  · show SegOk (stored ++ [(shape, buffer)])
      (enc.rows ++ [(e.nextId, enc.num_samples + 1)])
      (e.chunks ++ [(e.nextId, newSampleChunk buffer shape)]) 0
    rw [hns]
    rw [show newSampleChunk buffer shape =
      buildChunk [((shape, buffer) : StoredSample)] from by
        rw [buildChunk_single]
        rfl]
    exact SegOk_new (shape, buffer) e.nextId hseg hrowlt

theorem getLast?_cons_ne_none {α : Type} (a : α) :
    ∀ (l : List α), (a :: l).getLast? ≠ none := by
  intro l
  induction l generalizing a with
  | nil => simp
  | cons b bs ih =>
    rw [List.getLast?_cons_cons]
    exact ih b

/-- One successful `_append_bytes` of a size-checked buffer preserves the
reachability invariant, extending the store by the new sample. -/
theorem good_append_bytes {e e1 : EngineState} {stored : List StoredSample}
    {buffer : Bytes} {shape : List Nat} {dtype : String}
    (hg : Good e stored)
    (hb : buffer.length ≤ e.min_chunk_size_target)
    (h : e.append_bytes buffer shape dtype = (e1, .ok ())) :
    Good e1 (stored ++ [(shape, buffer)]) ∧
    e1.maxChunkSize = e.maxChunkSize ∧
    e1.meta.sample_compression = e.meta.sample_compression := by
  obtain ⟨hlen, hfresh, hseg0⟩ := hg
  have hbM : buffer.length ≤ e.maxChunkSize := le_trans hb (Nat.div_le_self _ _)
  have hcompat : e.meta.check_compatibility shape dtype = .ok () := by
    rcases hcc : e.meta.check_compatibility shape dtype with err | u
    · exfalso
      unfold EngineState.append_bytes at h
      rw [hcc] at h
      simp at h
    · cases u
      rfl
  cases henc : e.encoder with
  | none =>
    rw [henc] at hseg0
    obtain ⟨hstored, hchunks⟩ := hseg0
    subst hstored
    have hlen0 : e.meta.length = 0 := by simpa using hlen
    have hnone : e.last_chunk_entry = .ok none := by
      unfold EngineState.last_chunk_entry
      rw [if_pos (show e.num_chunks = 0 from by unfold EngineState.num_chunks; rw [henc])]
    have htry := @try_false_of_none { e with meta := e.meta.update shape dtype 1 }
      buffer (by rw [last_chunk_entry_set_meta]; exact hnone)
    have happ := @append_bytes_via_new _ _ _ _ ⟨[]⟩ hcompat htry
      (Or.inr ⟨henc, rfl, hlen0⟩) hbM hfresh
    rw [happ, Prod.mk.injEq] at h
    obtain ⟨he1, -⟩ := h
    subst he1
    refine ⟨?_, rfl, TensorMeta.compression_update e.meta shape dtype 1⟩
    exact @good_new_result _ _ buffer shape dtype ⟨[]⟩
      hlen hfresh (by rw [hchunks]; rfl) rfl (by simp)
  | some enc =>
    rw [henc] at hseg0
    have hseg : SegOk stored enc.rows e.chunks 0 := hseg0
    cases hrows : enc.rows.getLast? with
    | none =>
      have hrnil : enc.rows = [] := by
        cases hr2 : enc.rows with
        | nil => rfl
        | cons a as =>
          rw [hr2] at hrows
          exact absurd hrows (getLast?_cons_ne_none a as)
      have hpair : stored = [] ∧ e.chunks = [] := by
        rw [hrnil] at hseg
        cases hchs : e.chunks with
        | nil =>
          rw [hchs] at hseg
          exact ⟨List.length_eq_zero.mp hseg.symm, rfl⟩
        | cons q qs =>
          rw [hchs] at hseg
          exact absurd hseg (by simp [SegOk])
      obtain ⟨hstored, hchunks⟩ := hpair
      subst hstored
      have hnone : e.last_chunk_entry = .ok none := by
        unfold EngineState.last_chunk_entry
        rw [if_pos (show e.num_chunks = 0 from by
          unfold EngineState.num_chunks
          rw [henc]
          dsimp only
          unfold ChunkIdEncoder.num_chunks
          rw [hrnil]
          rfl)]
      have htry := @try_false_of_none { e with meta := e.meta.update shape dtype 1 }
        buffer (by rw [last_chunk_entry_set_meta]; exact hnone)
      have happ := append_bytes_via_new hcompat htry (Or.inl henc) hbM hfresh
      rw [happ, Prod.mk.injEq] at h
      obtain ⟨he1, -⟩ := h
      subst he1
      refine ⟨?_, rfl, TensorMeta.compression_update e.meta shape dtype 1⟩
      refine good_new_result hlen hfresh ?_ ?_ ?_
      · rw [hrnil, hchunks]
        rfl
      · unfold ChunkIdEncoder.num_samples
        rw [hrnil]
        rfl
      · intro q hq
        rw [hrnil] at hq
        cases hq
    | some lrow =>
      obtain ⟨lid, lcnt⟩ := lrow
      obtain ⟨lastC, hfind⟩ := SegOk_find_last hseg hrows
      have hcnt : lcnt = stored.length := SegOk_last_cnt hseg hrows
      have hns : enc.num_samples = stored.length := by
        unfold ChunkIdEncoder.num_samples
        rw [hrows]
        simpa using hcnt
      have hrowlt : ∀ q ∈ enc.rows, q.1 < e.nextId := by
        intro q hq
        have hmap := SegOk_ids hseg
        have hmem : q.1 ∈ e.chunks.map Prod.fst := by
          rw [← hmap]
          exact List.mem_map_of_mem Prod.fst hq
        obtain ⟨pp, hpp, hppe⟩ := List.mem_map.mp hmem
        rw [← hppe]
        exact hfresh pp hpp
      by_cases hunder : lastC.num_data_bytes < e.min_chunk_size_target
      · by_cases hct : min_chunk_ct_for_data_size e.maxChunkSize
            (buffer.length + lastC.num_data_bytes) =
          min_chunk_ct_for_data_size e.maxChunkSize buffer.length
        · -- combine into the last chunk
          have hM2 : 0 < e.maxChunkSize := by
            have hx := Nat.div_le_self e.maxChunkSize 2
            unfold EngineState.min_chunk_size_target at hunder
            omega
          have hbs := combine_le hM2 hbM hct
          have happ := append_bytes_combine_spec hcompat henc hrows hfind hunder hct hbs
          rw [happ, Prod.mk.injEq] at h
          obtain ⟨he1, -⟩ := h
          subst he1
          refine ⟨⟨?_, ?_, ?_⟩, rfl, TensorMeta.compression_update e.meta shape dtype 1⟩
          · show (e.meta.update shape dtype 1).length =
              (stored ++ [(shape, buffer)]).length
            rw [TensorMeta.length_update, hlen]
            simp
          · intro p hp
            obtain ⟨q, hq, hpq⟩ := setChunk_key_mem p hp
            show p.1 < e.nextId
            rw [hpq]
            exact hfresh q hq
          · exact SegOk_combine (shape, buffer) hseg hrows hfind
        · -- chunk counts differ: new chunk
          have hlast : e.last_chunk_entry = .ok (some (lid, lastC)) :=
            last_chunk_entry_mk henc hrows hfind
          have htry := @try_false_of_ct { e with meta := e.meta.update shape dtype 1 }
            buffer _ _ (by rw [last_chunk_entry_set_meta]; exact hlast) hunder hct
          have happ := append_bytes_via_new hcompat htry (Or.inl henc) hbM hfresh
          rw [happ, Prod.mk.injEq] at h
          obtain ⟨he1, -⟩ := h
          subst he1
          exact ⟨good_new_result hlen hfresh hseg hns hrowlt, rfl,
            TensorMeta.compression_update e.meta shape dtype 1⟩
      · -- last chunk full enough: new chunk
        have hlast : e.last_chunk_entry = .ok (some (lid, lastC)) :=
          last_chunk_entry_mk henc hrows hfind
        have htry := @try_false_of_full { e with meta := e.meta.update shape dtype 1 }
          buffer _ _ (by rw [last_chunk_entry_set_meta]; exact hlast) hunder
        have happ := append_bytes_via_new hcompat htry (Or.inl henc) hbM hfresh
        rw [happ, Prod.mk.injEq] at h
        obtain ⟨he1, -⟩ := h
        subst he1
        exact ⟨good_new_result hlen hfresh hseg hns hrowlt, rfl,
          TensorMeta.compression_update e.meta shape dtype 1⟩

theorem lookupIdAux_mem :
    ∀ {rows : List (Nat × Nat)} {g id : Nat},
      lookupIdAux rows g = some id → id ∈ rows.map Prod.fst := by
  intro rows
  induction rows with
  | nil =>
    intro g id h
    simp [lookupIdAux] at h
  | cons r rest ih =>
    intro g id h
    obtain ⟨rid, rc⟩ := r
    simp only [lookupIdAux] at h
    by_cases hg : g < rc
    · rw [if_pos hg] at h
      simp only [Option.some.injEq] at h
      simp [← h]
    · rw [if_neg hg] at h
      simp only [List.map_cons, List.mem_cons]
      exact Or.inr (ih h)

/-- Locating a global index through the encoder rows finds the chunk built
from the segment containing that index, together with the matching local
offset. -/
theorem SegOk_read {stored : List StoredSample} :
    ∀ {rows : List (Nat × Nat)} {chunks : List (Nat × Chunk)} {lo i : Nat},
      SegOk stored rows chunks lo → lo ≤ i → i < stored.length →
      ∃ id slo shi ch,
        lookupIdAux rows i = some id ∧
        chunks.find? (fun p => p.1 == id) = some (id, ch) ∧
        localIndexAux lo rows i = some (i - slo) ∧
        ch = buildChunk (storeSeg stored slo shi) ∧
        slo ≤ i ∧ i < shi ∧ shi ≤ stored.length := by
  intro rows
  induction rows with
  | nil =>
    intro chunks lo i h hlo hi
    cases chunks with
    | nil =>
      have hle : lo = stored.length := h
      omega
    | cons p ps => exact absurd h (by simp [SegOk])
  | cons r rest ih =>
    intro chunks lo i h hlo hi
    cases chunks with
    | nil => exact absurd h (by simp [SegOk])
    | cons p ps =>
      obtain ⟨rid, rc⟩ := r
      obtain ⟨pid, pch⟩ := p
      obtain ⟨hid, hlt, hch, hids, hrec⟩ := h
      by_cases hic : i < rc
      · refine ⟨rid, lo, rc, pch, ?_, ?_, ?_, hch, hlo, hic, SegOk_lo_le hrec⟩
        · simp only [lookupIdAux]
          rw [if_pos hic]
        · rw [List.find?_cons, show ((pid, pch).1 == rid) = true from by
            simp only [hid]; simp]
          rw [hid]
        · simp only [localIndexAux]
          rw [if_pos hic]
      · obtain ⟨id, slo, shi, ch, hlook, hfind, hlocal, hch2, hsloi, hishi, hshil⟩ :=
          ih hrec (by omega) hi
        have hmem : id ∈ rest.map Prod.fst := lookupIdAux_mem hlook
        have hridlt : rid < id := by
          obtain ⟨q, hq, hqe⟩ := List.mem_map.mp hmem
          have := hids q hq
          simp only at this
          omega
        refine ⟨id, slo, shi, ch, ?_, ?_, ?_, hch2, hsloi, hishi, hshil⟩
        · simp only [lookupIdAux]
          rw [if_neg hic]
          exact hlook
        · rw [List.find?_cons, show ((pid, pch).1 == id) = false from by
            simp only [hid]
            exact beq_eq_false_iff_ne.mpr (Nat.ne_of_lt hridlt)]
          exact hfind
        · simp only [localIndexAux]
          rw [if_neg hic]
          exact hlocal

/-- Reading any populated index of an invariant-satisfying store returns the
stored sample's shape and bytes (decompressed when the tensor is
compressed). -/
theorem good_read (codec : Codec) {e : EngineState} {stored : List StoredSample}
    (hg : Good e stored) {i : Nat} (hi : i < stored.length) :
    e.read_index codec i = .ok
      ((stored.get ⟨i, hi⟩).1,
        if e.meta.sample_compression ≠ UNCOMPRESSED then
          codec.decompress (stored.get ⟨i, hi⟩).2
        else (stored.get ⟨i, hi⟩).2) := by
  obtain ⟨hlen, -, hseg0⟩ := hg
  cases henc : e.encoder with
  | none =>
    rw [henc] at hseg0
    obtain ⟨hstored, -⟩ := hseg0
    subst hstored
    exact absurd hi (by simp)
  | some enc =>
    rw [henc] at hseg0
    have hseg : SegOk stored enc.rows e.chunks 0 := hseg0
    obtain ⟨id, slo, shi, ch, hlook, hfind, hlocal, hch, hsloi, hishi, hshil⟩ :=
      SegOk_read hseg (Nat.zero_le i) hi
    have hview : e.viewEncoder = .ok enc := by
      unfold EngineState.viewEncoder
      rw [henc]
    have hget : (storeSeg stored slo shi).get? (i - slo) =
        some (stored.get ⟨i, hi⟩) := by
      rw [storeSeg_get hsloi hishi hshil]
      exact List.get?_eq_get hi
    obtain ⟨hsh, hrg, hdata⟩ := buildChunk_read hget
    unfold EngineState.read_index
    rw [hview]
    dsimp only
    unfold ChunkIdEncoder.getChunkId
    rw [hlook]
    dsimp only
    rw [hfind]
    dsimp only
    unfold EngineState.read_sample_from_chunk
    rw [hview]
    dsimp only
    unfold ChunkIdEncoder.get_local_sample_index
    rw [hlocal]
    dsimp only
    rw [hch, hsh, hrg]
    dsimp only
    rw [hdata]
    by_cases hc : e.meta.sample_compression ≠ UNCOMPRESSED
    · rw [if_pos hc, if_pos hc]
    · rw [if_neg hc, if_neg hc]

theorem check_sample_size_ok_le {e : EngineState} {n : Nat}
    (h : e.check_sample_size n = .ok ()) : n ≤ e.min_chunk_size_target := by
  unfold EngineState.check_sample_size at h
  by_cases hx : e.min_chunk_size_target < n
  · rw [if_pos hx] at h
    exact absurd h (by simp)
  · omega

theorem checkAllSizes_ok_mem {e : EngineState} :
    ∀ {sizes : List Nat}, checkAllSizes e sizes = .ok () →
      ∀ n ∈ sizes, n ≤ e.min_chunk_size_target := by
  intro sizes
  induction sizes with
  | nil =>
    intro h n hn
    cases hn
  | cons m rest ih =>
    intro h n hn
    unfold checkAllSizes at h
    split at h
    · exact absurd h (by simp)
    · rename_i hchk
      rcases List.mem_cons.mp hn with hn | hn
      · subst hn
        exact check_sample_size_ok_le hchk
      · exact ih h n hn

/-- A successful run of appends from an invariant-satisfying state leaves an
invariant-satisfying state whose store grew by the serialized samples. -/
theorem good_runAppends (codec : Codec) :
    ∀ {ss : List Sample} {e e1 : EngineState} {stored : List StoredSample},
      Good e stored → runAppends codec e ss = (e1, .ok ()) →
      Good e1 (stored ++ ss.map (fun s =>
        (s.shape, Sample.compressed_bytes codec e.meta.sample_compression s))) ∧
      e1.meta.sample_compression = e.meta.sample_compression ∧
      e1.maxChunkSize = e.maxChunkSize := by
  intro ss
  induction ss with
  | nil =>
    intro e e1 stored hg hrun
    unfold runAppends at hrun
    simp only [Prod.mk.injEq] at hrun
    rw [← hrun.1]
    simpa using hg
  | cons s rest ih =>
    intro e e1 stored hg hrun
    unfold runAppends at hrun
    split at hrun
    · exact absurd hrun (by simp)
    · rename_i e2 happ
      unfold EngineState.append at happ
      dsimp only at happ
      split at happ
      · exact absurd happ (by simp)
      · rename_i hchk
        have hb : (Sample.compressed_bytes codec e.meta.sample_compression s).length ≤
            e.min_chunk_size_target := check_sample_size_ok_le hchk
        obtain ⟨hg2, hmax2, hcomp2⟩ := good_append_bytes hg hb happ
        obtain ⟨hgood1, hcomp1, hmax1⟩ := ih hg2 hrun
        rw [hcomp2] at hgood1
        refine ⟨?_, by rw [hcomp1, hcomp2], by rw [hmax1, hmax2]⟩
        rw [List.map_cons, show ∀ (a : StoredSample) (l1 : List StoredSample)
          (l2 : List StoredSample), l1 ++ (a :: l2) = (l1 ++ [a]) ++ l2 from by
            intro a l1 l2
            simp]
        exact hgood1

/-- A successful uncompressed-array write loop preserves the invariant,
adding one stored sample per row. -/
theorem good_appendEachBytes {shape : List Nat} {dtype : String} :
    ∀ {rows : List Bytes} {e e1 : EngineState} {stored : List StoredSample},
      Good e stored →
      (∀ r ∈ rows, r.length ≤ e.min_chunk_size_target) →
      appendEachBytes shape dtype e rows = (e1, .ok ()) →
      Good e1 (stored ++ rows.map (fun r => (shape, r))) ∧
      e1.meta.sample_compression = e.meta.sample_compression ∧
      e1.maxChunkSize = e.maxChunkSize := by
  intro rows
  induction rows with
  | nil =>
    intro e e1 stored hg hsz hrun
    unfold appendEachBytes at hrun
    simp only [Prod.mk.injEq] at hrun
    rw [← hrun.1]
    simpa using hg
  | cons b rest ih =>
    intro e e1 stored hg hsz hrun
    unfold appendEachBytes at hrun
    split at hrun
    · exact absurd hrun (by simp)
    · rename_i e2 happ
      have hb : b.length ≤ e.min_chunk_size_target :=
        hsz b (List.mem_cons_self b rest)
      obtain ⟨hg2, hmax2, hcomp2⟩ := good_append_bytes hg hb happ
      have hsz2 : ∀ r ∈ rest, r.length ≤ e2.min_chunk_size_target := by
        intro r hr
        unfold EngineState.min_chunk_size_target
        rw [hmax2]
        exact hsz r (List.mem_cons_of_mem b hr)
      obtain ⟨hgood1, hcomp1, hmax1⟩ := ih hg2 hsz2 hrun
      refine ⟨?_, by rw [hcomp1, hcomp2], by rw [hmax1, hmax2]⟩
      rw [List.map_cons, show ∀ (a : StoredSample) (l1 : List StoredSample)
        (l2 : List StoredSample), l1 ++ (a :: l2) = (l1 ++ [a]) ++ l2 from by
          intro a l1 l2
          simp]
      exact hgood1

theorem good_fresh (meta : TensorMeta) (M : Nat) (h0 : meta.length = 0) :
    Good (freshEngine meta M) [] := by
  refine ⟨h0, ?_, ⟨rfl, rfl⟩⟩
  intro p hp
  cases hp

theorem get_map_pair {α β : Type} (f : α → β) (l : List α) (i : Nat)
    (hi : i < l.length) (hli : i < (l.map f).length) :
    (l.map f).get ⟨i, hli⟩ = f (l.get ⟨i, hi⟩) := by
  have h1 := List.get?_eq_get hli
  rw [List.get?_map, List.get?_eq_get hi] at h1
  simp only [Option.map_some', Option.some.injEq] at h1
  exact h1.symm

/-- C1: round-trip.  Every sample appended as the `i`-th sample of a fresh
tensor (via repeated `append`, or via `extend` over a uniform array) is
returned byte- and shape-identical by a later read of global index `i`
(`numpy`'s per-index body, `read_sample_from_chunk`), for compressed and
uncompressed tensors alike (the codec being lossless). -/
theorem c1_roundtrip :
    (∀ (codec : Codec) (meta : TensorMeta) (M : Nat) (ss : List Sample)
        (e : EngineState) (i : Nat) (hi : i < ss.length),
        (∀ bs, codec.decompress (codec.compress bs) = bs) →
        meta.length = 0 →
        runAppends codec (freshEngine meta M) ss = (e, .ok ()) →
        e.read_index codec i = .ok ((ss.get ⟨i, hi⟩).shape, (ss.get ⟨i, hi⟩).raw)) ∧
    (∀ (codec : Codec) (meta : TensorMeta) (M : Nat) (rows : List Bytes)
        (shape : List Nat) (dtype : String) (e : EngineState) (i : Nat)
        (hi : i < rows.length),
        (∀ bs, codec.decompress (codec.compress bs) = bs) →
        meta.length = 0 →
        (freshEngine meta M).extend_array codec rows shape dtype = (e, .ok ()) →
        e.read_index codec i = .ok (shape, rows.get ⟨i, hi⟩)) := by
  constructor
  · intro codec meta M ss e i hi hcodec h0 hrun
    obtain ⟨hgood, hcomp, -⟩ :=
      good_runAppends codec (good_fresh meta M h0) hrun
    rw [List.nil_append] at hgood
    have hli : i < (ss.map (fun s =>
        (s.shape, Sample.compressed_bytes codec
          (freshEngine meta M).meta.sample_compression s))).length := by
      simpa using hi
    have hread := good_read codec hgood hli
    rw [get_map_pair _ ss i hi hli] at hread
    rw [hread, hcomp]
    show Except.ok _ = _
    by_cases hc : meta.sample_compression = UNCOMPRESSED
    · simp [freshEngine, Sample.compressed_bytes, hc]
    · simp [freshEngine, Sample.compressed_bytes, hc, hcodec]
  · intro codec meta M rows shape dtype e i hi hcodec h0 hext
    unfold EngineState.extend_array at hext
    by_cases hc : (freshEngine meta M).meta.sample_compression = UNCOMPRESSED
    · rw [if_pos hc] at hext
      split at hext
      · exact absurd hext (by simp)
      · rename_i hchk
        have hsz : ∀ r ∈ rows, r.length ≤ (freshEngine meta M).min_chunk_size_target := by
          intro r hr
          exact checkAllSizes_ok_mem hchk r.length (List.mem_map_of_mem List.length hr)
        obtain ⟨hgood, hcomp, -⟩ :=
          good_appendEachBytes (good_fresh meta M h0) hsz hext
        rw [List.nil_append] at hgood
        have hli : i < (rows.map (fun r => ((shape, r) : StoredSample))).length := by
          simpa using hi
        have hread := good_read codec hgood hli
        rw [get_map_pair _ rows i hi hli] at hread
        rw [hread, hcomp]
        have hcu : meta.sample_compression = UNCOMPRESSED := hc
        simp [freshEngine, hcu]
    · rw [if_neg hc] at hext
      split at hext
      · exact absurd hext (by simp)
      · rename_i hchk
        obtain ⟨hgood, hcomp, -⟩ :=
          good_runAppends codec (good_fresh meta M h0) hext
        rw [List.nil_append, List.map_map] at hgood
        have hli : i < (rows.map ((fun s =>
            (s.shape, Sample.compressed_bytes codec
              (freshEngine meta M).meta.sample_compression s)) ∘
            (fun r => (⟨shape, dtype, r⟩ : Sample)))).length := by
          simpa using hi
        have hread := good_read codec hgood hli
        rw [get_map_pair _ rows i hi hli] at hread
        rw [hread, hcomp]
        have hcu : ¬ meta.sample_compression = UNCOMPRESSED := hc
        simp [freshEngine, Sample.compressed_bytes, hcu, Function.comp, hcodec]

/-- C1 witness: a compressed two-sample append run reads back sample 1, and
an uncompressed two-row extend reads back row 0. -/
theorem c1_roundtrip_witness :
    (runAppends markCodec (freshEngine pngMeta 64)
        [⟨[3], "u8", [1, 2, 3]⟩, ⟨[4], "u8", [4, 5, 6, 7]⟩]).1.read_index markCodec 1 =
      .ok ([4], [4, 5, 6, 7]) ∧
    ((freshEngine u8meta 64).extend_array idCodec [[1, 1], [2, 2]]
        [2] "u8").1.read_index idCodec 0 =
      .ok ([2], [1, 1]) :=
  ⟨c1_roundtrip.1 markCodec pngMeta 64
      [⟨[3], "u8", [1, 2, 3]⟩, ⟨[4], "u8", [4, 5, 6, 7]⟩] _ 1 (by decide)
      (fun bs => rfl) rfl rfl,
   c1_roundtrip.2 idCodec u8meta 64 [[1, 1], [2, 2]] [2] "u8" _ 0 (by decide)
      (fun bs => rfl) rfl rfl⟩

/-- With `aslist = true` the accumulation loop never raises: it returns all
read samples. -/
theorem numpyLoop_true {codec : Codec} {e : EngineState} :
    ∀ {sel : List Nat} {rs : List (List Nat × Bytes)},
      List.Forall₂ (fun g r => e.read_index codec g = .ok r) sel rs →
      ∀ last_shape, e.numpyLoop codec true sel last_shape = .ok rs := by
  intro sel rs hreads
  induction hreads with
  | nil =>
    intro last_shape
    rfl
  | cons hd tl ihd =>
    intro last_shape
    unfold EngineState.numpyLoop
    rw [hd]
    dsimp only
    rw [show (!true && last_shape.isSome && decide (last_shape ≠ some _)) = false by
      simp]
    rw [if_neg (by simp)]
    rw [ihd]

/-- With `aslist = false` and a tracked shape, any later sample of a
different shape raises the dynamic-shape error. -/
theorem numpyLoop_false_err {codec : Codec} {e : EngineState} :
    ∀ {sel : List Nat} {rs : List (List Nat × Bytes)},
      List.Forall₂ (fun g r => e.read_index codec g = .ok r) sel rs →
      ∀ sh : List Nat, (∃ r ∈ rs, r.1 ≠ sh) →
      e.numpyLoop codec false sel (some sh) = .error .dynamicShape := by
  intro sel rs hreads
  induction hreads with
  | nil =>
    intro sh hne
    simp at hne
  | cons hd tl ihd =>
    rename_i g r gs rrs
    intro sh hne
    unfold EngineState.numpyLoop
    rw [hd]
    dsimp only
    by_cases hr : r.1 = sh
    · rw [if_neg (by simp [hr])]
      have hne2 : ∃ q ∈ rrs, q.1 ≠ r.1 := by
        obtain ⟨q, hq, hqs⟩ := hne
        rcases List.mem_cons.mp hq with hq0 | hq1
        · exact absurd (by rw [hq0] at hqs; exact hqs) (by simp [hr])
        · exact ⟨q, hq1, by rw [hr]; exact hqs⟩
      rw [ihd r.1 hne2]
    · rw [if_pos (by simp; exact fun hcontra => hr hcontra.symm)]

/-- C8: an index selecting at least two stored samples of unequal shapes
makes `numpy(..., aslist := false)` fail with the dynamic-shape error, while
`numpy(..., aslist := true)` succeeds and returns the per-sample list. -/
theorem c8_dynamic_shape_view (codec : Codec) (e : EngineState) (sel : List Nat)
    (rs : List (List Nat × Bytes))
    (hreads : List.Forall₂ (fun g r => e.read_index codec g = .ok r) sel rs)
    (hne : ∃ a ∈ rs, ∃ b ∈ rs, a.1 ≠ b.1) :
    e.numpy codec sel false = .error .dynamicShape ∧
    e.numpy codec sel true = .ok rs := by
  refine ⟨?_, numpyLoop_true hreads none⟩
  cases hreads with
  | nil => simp at hne
  | cons hd tl =>
    rename_i g r gs rrs
    unfold EngineState.numpy EngineState.numpyLoop
    rw [hd]
    dsimp only
    rw [if_neg (by simp)]
    have hne2 : ∃ q ∈ rrs, q.1 ≠ r.1 := by
      obtain ⟨a, ha, b, hb, hab⟩ := hne
      rcases List.mem_cons.mp ha with ha0 | ha1
      · rcases List.mem_cons.mp hb with hb0 | hb1
        · exact absurd (ha0.trans hb0.symm) (fun hx => hab (congrArg Prod.fst hx))
        · exact ⟨b, hb1, by rw [← ha0]; exact fun hx => hab hx.symm⟩
      · rcases List.mem_cons.mp hb with hb0 | hb1
        · exact ⟨a, ha1, by rw [← hb0]; exact hab⟩
        · by_cases hav : a.1 = r.1
          · exact ⟨b, hb1, by rw [← hav]; exact fun hx => hab hx.symm⟩
          · exact ⟨a, ha1, hav⟩
    rw [numpyLoop_false_err tl r.1 hne2]

/-- C8 witness: after appending a `(3,)` then a `(4,)` sample, selecting
both indices fails as a dense view and succeeds as a list. -/
theorem c8_dynamic_shape_view_witness :
    twoShapesState.numpy idCodec [0, 1] false = .error .dynamicShape ∧
    twoShapesState.numpy idCodec [0, 1] true =
      .ok [([3], [1, 2, 3]), ([4], [4, 5, 6, 7])] :=
  c8_dynamic_shape_view idCodec twoShapesState [0, 1]
    [([3], [1, 2, 3]), ([4], [4, 5, 6, 7])]
    (List.Forall₂.cons rfl (List.Forall₂.cons rfl List.Forall₂.nil))
    ⟨([3], [1, 2, 3]), by simp, ([4], [4, 5, 6, 7]), by simp, by decide⟩
